import Mathlib

/-! # NeuronNet: the network engine

A shallow embedding of `src/network.cpp` (class `Network`): the neuron vector, the
link map, `resize`, `set_default_params`, `add_link`, `random_connect`, `degree`,
`neighbors` and `step`, followed by theorems about them.

Conventions of the embedding.

* `double` values are rationals (`ℚ`).  Where a result depends on it, the rounding of an
  arithmetic result to the nearest double (`roundDouble`, used by line 8 of `resize` and by
  `degree_double`) and the value NaN (`Dbl`, used by `add_link_double`) are modelled;
  infinities are not.  `size_t` and `int` values are `Nat` and `Int`; the one place where
  a `size_t` sum can wrap (`kmax` in `set_default_params`) is reduced modulo `2^64`.
* `std::vector<Neuron>` is a `List`, `std::map<std::pair<size_t,size_t>, double>` is a
  list of key/value entries kept in the map's iteration order, `std::set<size_t>` is a
  list of indices in increasing order.
* The class `Neuron` is an external collaborator: its operations are a parameter
  (`NeuronModel`) of every definition.
* The global random generator `_RNG` is replaced by its outputs, passed as arguments.
-/

namespace NeuronNet

/-! ## The neuron collaborator -/

/-- The operations of class `Neuron` that `network.cpp` calls, over a state type `N`. -/
structure NeuronModel (N : Type) where
  /-- A default-constructed neuron, the value `std::vector::resize` appends. -/
  fresh : N
  /-- The spike condition `firing()`. -/
  firing : N → Bool
  /-- The post-spike state reset `reset()`. -/
  reset : N → N
  /-- The drive accumulation `input(value)`. -/
  input : N → ℚ → N
  /-- One integration tick `step()`. -/
  step : N → N
  /-- The type attribute `is_inhibitory()`. -/
  is_inhibitory : N → Bool
  /-- The static registry predicate `Neuron::type_exists(name)`. -/
  type_exists : String → Bool
  /-- The method `set_default_params(type_name, noise)`. -/
  set_default_params : N → String → ℚ → N

/-! ## The link map -/

/-- A key of the link map: the ordered pair (source, target). -/
abbrev LinkKey := Nat × Nat

/-- An entry of the link map: key and stored weight. -/
abbrev Link := LinkKey × ℚ

/-- Modelled from the spec: the key order of the link map.  The member `links` is declared
in `network.h`, which is not among the sources; it is taken to be a
`std::map<std::pair<size_t,size_t>, double>`, the type that the calls `links.count({a,b})`
and `links.insert({{a,b}, str})` and the iteration over `link.first` and `link.second` fit,
whose keys compare lexicographically. -/
def keyLt (p q : LinkKey) : Bool :=
  decide (p.1 < q.1) || (p.1 == q.1 && decide (p.2 < q.2))

/-- The member `std::map::count(key)`: 1 when an entry with that key is stored, else 0. -/
def mapCount (links : List Link) (k : LinkKey) : Nat :=
  if links.any (fun e => e.1 == k) then 1 else 0

/-- The member `std::map::insert({key, value})`: the entry is placed at its position in
key order; when an entry with the key is already stored nothing changes. -/
def mapInsert : List Link → LinkKey → ℚ → List Link
  | [], k, v => [(k, v)]
  | e :: es, k, v =>
    if keyLt k e.1 then (k, v) :: e :: es
    else if e.1 = k then e :: es
    else e :: mapInsert es k v

/-- The member `std::set::insert(i)` on an increasing list of indices. -/
def setInsert : List Nat → Nat → List Nat
  | [], i => [i]
  | j :: js, i =>
    if i < j then i :: j :: js
    else if j = i then j :: js
    else j :: setInsert js i

/-! ## The network -/

/-- The data members of class `Network`. -/
structure Network (N : Type) where
  /-- The member `neurons`. -/
  neurons : List N
  /-- The member `links`. -/
  links : List Link

variable {N : Type}

/-- A network as constructed: no neurons, no links. -/
def Network.empty : Network N := ⟨[], []⟩

/-- The accessor `size()`. -/
def Network.size (net : Network N) : Nat := net.neurons.length

/-- The accessor `neuron(i)` and the read `neurons[i]`.  Every read the modelled code
makes is inside the vector; outside it the model returns a default-constructed neuron. -/
def Network.neuron (M : NeuronModel N) (net : Network N) (i : Nat) : N :=
  net.neurons.getD i M.fresh

/-- The member `std::vector::resize(n)`: truncate to `n` elements or pad with
default-constructed ones. -/
def vecResize (d : N) (l : List N) (n : Nat) : List N :=
  l.take n ++ List.replicate (n - l.length) d

/-- Apply `f` to element `i` of a vector in place (`v[i].f()`); indices outside the
vector leave it as it is. -/
def modifyAt (l : List N) (i : Nat) (f : N → N) : List N :=
  match l[i]? with
  | some x => l.set i (f x)
  | none => l

/-- The threshold `1e-6` of `add_link`. -/
def minStrength : ℚ := 1 / 1000000

/-- Conversion of a `double` to an integer type: truncation toward zero. -/
def truncInt (q : ℚ) : Int := Int.tdiv q.num (q.den : Int)

/-- The modulus of `size_t` arithmetic. -/
def sizeMod : Nat := 2 ^ 64

/-! ### Double precision -/

/-- The power `2^z` for an integer exponent. -/
def pow2 (z : Int) : ℚ :=
  if 0 ≤ z then ((2 ^ z.toNat : Nat) : ℚ) else 1 / ((2 ^ (-z).toNat : Nat) : ℚ)

/-- The position of the leading binary digit of `n` (0 for `n < 2`), with `fuel` halvings
allowed. -/
def bitLog : Nat → Nat → Nat
  | 0, _ => 0
  | fuel + 1, n => if n < 2 then 0 else bitLog fuel (n / 2) + 1

/-- The binary exponent of a positive rational `q`: the `e` with `2^e <= q < 2^(e+1)`. -/
def floorLog2 (q : ℚ) : Int :=
  let a : Int := (bitLog q.num.natAbs q.num.natAbs : Nat)
  let b : Int := (bitLog q.den q.den : Nat)
  if pow2 (a - b) ≤ q then a - b else a - b - 1

/-- The `double` (IEEE 754 binary64) nearest to `q`, ties to the even significand: the
result of a `double` operation whose exact value is `q`.  The significand has 53 bits, the
exponent is at least -1022 (below it the spacing stays `2^-1074`); overflow to infinity is
not modelled. -/
def roundDouble (q : ℚ) : ℚ :=
  if q = 0 then 0
  else
    let x := if 0 ≤ q then q else -q
    let e := max (floorLog2 x) (-1022)
    let u := pow2 (e - 52)
    let k := x / u
    let n := Rat.floor k
    let r := k - (n : ℚ)
    let m : Int :=
      if r < 1 / 2 then n
      else if 1 / 2 < r then n + 1
      else if n % 2 = 0 then n else n + 1
    (if 0 ≤ q then (m : ℚ) else -(m : ℚ)) * u

/-- Line 8 of `resize`, `size_t nfs(inhib*(n-old)+.5)`, for `m = n - old`: the `size_t`
difference is converted to `double`, the product and the sum are rounded to `double`, and
the conversion to `size_t` truncates. -/
def nfsDouble (inhib : ℚ) (m : Nat) : Nat :=
  (truncInt (roundDouble (roundDouble (inhib * roundDouble (m : ℚ)) + 1 / 2))).toNat

/-! ### `set_default_params` and `resize` -/

/-- The inner loop of `set_default_params` (lines 19-20 and 21):
`for (; k < stop; k++) neurons[start+k].set_default_params(ty, noise[k])`,
run for `cnt = stop - k` iterations. -/
def fillRun (M : NeuronModel N) (ty : String) (noise : Nat → ℚ) (start : Nat) :
    Nat → Nat → List N → List N
  | 0, _, ns => ns
  | cnt + 1, k, ns =>
    fillRun M ty noise start cnt (k + 1)
      (modifyAt ns (start + k) (fun x => M.set_default_params x ty (noise k)))

/-- The loop over the type map of `set_default_params` (lines 17-20); the state is
`(k, kmax, neurons)`. -/
def typeLoop (M : NeuronModel N) (noise : Nat → ℚ) (start ssize : Nat) :
    List (String × Nat) → Nat × Nat × List N → Nat × Nat × List N
  | [], st => st
  | (ty, cnt) :: rest, (k, kmax, ns) =>
    if M.type_exists ty then
      let kmax1 := (kmax + cnt) % sizeMod
      let stop := min kmax1 ssize
      typeLoop M noise start ssize rest
        (max k stop, kmax1, fillRun M ty noise start (stop - k) k ns)
    else
      typeLoop M noise start ssize rest (k, kmax, ns)

/-- The function `Network::set_default_params(types, start)`; `types` lists the map in key
order and `noise` is the batch of uniform draws the generator returns. -/
def set_default_params (M : NeuronModel N) (net : Network N)
    (types : List (String × Nat)) (start : Nat) (noise : Nat → ℚ) : Network N :=
  let ssize := net.size - start
  let st := typeLoop M noise start ssize types (0, 0, net.neurons)
  { net with neurons := fillRun M "RS" noise start (ssize - st.1) st.1 st.2.2 }

/-- The function `Network::resize(n, inhib)`. -/
def resize (M : NeuronModel N) (net : Network N) (n : Nat) (inhib : ℚ)
    (noise : Nat → ℚ) : Network N :=
  let old := net.size
  let net1 : Network N := { net with neurons := vecResize M.fresh net.neurons n }
  if n ≤ old then net1
  else
    let nfs := nfsDouble inhib (n - old)
    set_default_params M net1 [("FS", nfs)] old noise

/-! ### `add_link` and `random_connect` -/

/-- The function `Network::add_link(a, b, str)`: the returned flag and the network after
the call. -/
def add_link (M : NeuronModel N) (net : Network N) (a b : Nat) (str : ℚ) :
    Bool × Network N :=
  if a = b ∨ a ≥ net.size ∨ b ≥ net.size ∨ str < minStrength then (false, net)
  else if mapCount net.links (a, b) ≠ 0 then (false, net)
  else
    let str1 := if M.is_inhibitory (net.neuron M b) then str * (-2) else str
    (true, { net with links := mapInsert net.links (a, b) str1 })

/-! ### `add_link` on a strength that may be NaN -/

/-- A `double` value as the comparisons of line 39 see it: a number or NaN. -/
inductive Dbl where
  | finite (q : ℚ)
  | nan
  deriving DecidableEq

/-- The comparison `x < c` of `double`s: false when `x` is NaN. -/
def Dbl.lt (x : Dbl) (c : ℚ) : Bool :=
  match x with
  | .finite q => decide (q < c)
  | .nan => false

/-- The comparison `x >= c` of `double`s: false when `x` is NaN. -/
def Dbl.ge (x : Dbl) (c : ℚ) : Bool :=
  match x with
  | .finite q => decide (c ≤ q)
  | .nan => false

/-- The product `x * c` of `double`s for `c = -2.0`, which is exact on numbers; NaN stays
NaN. -/
def Dbl.mul (x : Dbl) (c : ℚ) : Dbl :=
  match x with
  | .finite q => .finite (q * c)
  | .nan => .nan

/-- An entry of the link map whose weight may be NaN. -/
abbrev LinkD := LinkKey × Dbl

/-- The data members of class `Network`, the weights being numbers or NaN. -/
structure NetworkD (N : Type) where
  /-- The member `neurons`. -/
  neurons : List N
  /-- The member `links`. -/
  links : List LinkD

/-- The member `std::map::count(key)` on weights that may be NaN. -/
def mapCountD (links : List LinkD) (k : LinkKey) : Nat :=
  if links.any (fun e => e.1 == k) then 1 else 0

/-- The member `std::map::insert({key, value})` on weights that may be NaN. -/
def mapInsertD : List LinkD → LinkKey → Dbl → List LinkD
  | [], k, v => [(k, v)]
  | e :: es, k, v =>
    if keyLt k e.1 then (k, v) :: e :: es
    else if e.1 = k then e :: es
    else e :: mapInsertD es k v

/-- The literal `1e-6` of line 39: the `double` nearest to `10^-6`. -/
def minStrengthDouble : ℚ := roundDouble minStrength

/-- The function `Network::add_link(a, b, str)` for a strength that is a number or NaN:
the returned flag and the link map after the call. -/
def add_link_double (M : NeuronModel N) (net : NetworkD N) (a b : Nat) (str : Dbl) :
    Bool × NetworkD N :=
  if a = b ∨ a ≥ net.neurons.length ∨ b ≥ net.neurons.length ∨
      str.lt minStrengthDouble = true then (false, net)
  else if mapCountD net.links (a, b) ≠ 0 then (false, net)
  else
    let str1 := if M.is_inhibitory (net.neurons.getD b M.fresh) then str.mul (-2) else str
    (true, { net with links := mapInsertD net.links (a, b) str1 })

/-- The inner loop of `random_connect` (lines 58-59) for one `node`, started at candidate
position `nn` with `fuel = size() - nn` iterations left; the state is `(nl, network)`. -/
def scanLoop (M : NeuronModel N) (node : Nat) (deg : Int) (nodeidx : Nat → Nat)
    (strength : Nat → ℚ) : Nat → Nat → Nat → Network N → Nat × Network N
  | 0, _, nl, net => (nl, net)
  | fuel + 1, nn, nl, net =>
    if (nl : Int) < deg then
      let r := add_link M net node (nodeidx nn) (strength nl)
      scanLoop M node deg nodeidx strength fuel (nn + 1) (if r.1 then nl + 1 else nl) r.2
    else (nl, net)

/-- The outer loop of `random_connect` (lines 53-61) over the given nodes; the state is
`(num_links, network)`. -/
def connectLoop (M : NeuronModel N) (degrees : Nat → Int) (shuffles : Nat → Nat → Nat)
    (strengths : Nat → Nat → ℚ) : List Nat → Nat × Network N → Nat × Network N
  | [], st => st
  | node :: rest, (num, net) =>
    let r := scanLoop M node (degrees node) (shuffles node) (strengths node) net.size 0 0 net
    connectLoop M degrees shuffles strengths rest (num + r.1, r.2)

/-- The function `Network::random_connect(mean_deg, mean_streng)`.  The generator is
replaced by what it returns: `degrees node` is the Poisson draw for `node`,
`shuffles node nn` is `nodeidx[nn]` after the shuffle made for `node`, and
`strengths node nl` is `strength[nl]` of the batch drawn for `node`. -/
def random_connect (M : NeuronModel N) (net : Network N) (degrees : Nat → Int)
    (shuffles : Nat → Nat → Nat) (strengths : Nat → Nat → ℚ) : Nat × Network N :=
  let net0 : Network N := { net with links := [] }
  connectLoop M degrees shuffles strengths (List.range net0.size) (0, net0)

/-! ### `neighbors` and `degree` -/

/-- The function `Network::neighbors(n)`: the (target, weight) pairs of the links whose
source is `n`, in the iteration order of the map. -/
def neighbors (net : Network N) (n : Nat) : List (Nat × ℚ) :=
  net.links.foldl (fun acc link => if link.1.1 = n then acc ++ [(link.1.2, link.2)] else acc) []

/-- The function `Network::degree(n)`. -/
def degree (net : Network N) (n : Nat) : Nat × ℚ :=
  let connections := neighbors net n
  if connections.isEmpty then (0, 0)
  else (connections.length, connections.foldl (fun s nb => s + nb.2) 0)

/-- The function `Network::degree(n)` with the additions of line 78 made in `double`: each
`sum_intensities += neighbor.second` rounds the sum to the nearest `double`. -/
def degree_double (net : Network N) (n : Nat) : Nat × ℚ :=
  let connections := neighbors net n
  if connections.isEmpty then (0, 0)
  else (connections.length, connections.foldl (fun s nb => roundDouble (s + nb.2)) 0)

/-! ### `step` -/

/-- The first loop of `step` (lines 123-129) over the given indices; the state is
`(neurons, firing_neurons)`. -/
def firingLoop (M : NeuronModel N) : List Nat → List N × List Nat → List N × List Nat
  | [], st => st
  | i :: rest, (ns, fired) =>
    if M.firing (ns.getD i M.fresh) then
      firingLoop M rest (modifyAt ns i M.reset, setInsert fired i)
    else firingLoop M rest (ns, fired)

/-- The loop over `neighbors(i)` of `step` (lines 135-140): the pair
`(excitatory_firing, inhibitory_firing)`. -/
def splitFiring (M : NeuronModel N) (ns : List N) (fired : List Nat)
    (nbrs : List (Nat × ℚ)) : List (Nat × ℚ) × List (Nat × ℚ) :=
  nbrs.foldl
    (fun acc nb =>
      if nb.1 ∈ fired then
        if M.is_inhibitory (ns.getD nb.1 M.fresh) then (acc.1, acc.2 ++ [nb])
        else (acc.1 ++ [nb], acc.2)
      else acc)
    ([], [])

/-- The summation loops of `step` (lines 142-149). -/
def sumWeights (l : List (Nat × ℚ)) : ℚ :=
  l.foldl (fun s nb => s + nb.2) 0

/-- The local `int w` of `step` (lines 151-153): the `double` constant `0.4` is
converted to `int` by the assignment. -/
def gainInt (M : NeuronModel N) (x : N) : Int :=
  if M.is_inhibitory x then truncInt (4 / 10) else 1

/-- The argument of `input` at line 155 for neuron `i`, computed from the current
neuron vector `ns`, the link map, the firing set and the thalamic input. -/
def drive (M : NeuronModel N) (ns : List N) (links : List Link) (fired : List Nat)
    (thalamic : List ℚ) (i : Nat) : ℚ :=
  let sp := splitFiring M ns fired (neighbors (⟨ns, links⟩ : Network N) i)
  (gainInt M (ns.getD i M.fresh) : ℚ) * thalamic.getD i 0
    + 1 / 2 * sumWeights sp.1 + sumWeights sp.2

/-- The second loop of `step` (lines 131-156) over the given indices. -/
def inputLoop (M : NeuronModel N) (links : List Link) (fired : List Nat)
    (thalamic : List ℚ) : List Nat → List N → List N
  | [], ns => ns
  | i :: rest, ns =>
    inputLoop M links fired thalamic rest
      (modifyAt ns i (fun x => M.input x (drive M ns links fired thalamic i)))

/-- The third loop of `step` (lines 158-160), `for (auto neuron : neurons) neuron.step();`:
each iteration copies an element into the local `neuron`, steps the copy and drops it. -/
def integrateLoop (M : NeuronModel N) (ns : List N) : List N :=
  ns.foldl (fun stored x => let _neuron := M.step x; stored) ns

/-- The function `Network::step(thalamic_input)`: the returned firing set and the network
after the call. -/
def step (M : NeuronModel N) (net : Network N) (thalamic : List ℚ) :
    List Nat × Network N :=
  let p1 := firingLoop M (List.range net.size) (net.neurons, [])
  let ns2 := inputLoop M net.links p1.2 thalamic (List.range net.size) p1.1
  (p1.2, { net with neurons := integrateLoop M ns2 })

/-! ## Sequences of operations -/

/-- A call of one of the mutating operations of `Network`, with the outputs of the random
generator that the call consumes. -/
inductive Op where
  | resize (n : Nat) (inhib : ℚ) (noise : Nat → ℚ)
  | add_link (a b : Nat) (str : ℚ)
  | random_connect (degrees : Nat → Int) (shuffles : Nat → Nat → Nat)
      (strengths : Nat → Nat → ℚ)
  | step (thalamic : List ℚ)

/-- The network after one call. -/
def applyOp (M : NeuronModel N) (net : Network N) : Op → Network N
  | .resize n inhib noise => resize M net n inhib noise
  | .add_link a b str => (add_link M net a b str).2
  | .random_connect degrees shuffles strengths =>
    (random_connect M net degrees shuffles strengths).2
  | .step thalamic => (step M net thalamic).2

/-- The network after a sequence of calls. -/
def runOps (M : NeuronModel N) (net : Network N) (ops : List Op) : Network N :=
  ops.foldl (applyOp M) net

/-- No `resize` call of the sequence asks for fewer neurons than the network has at
that point. -/
def growOnly (M : NeuronModel N) : Network N → List Op → Bool
  | _, [] => true
  | net, op :: ops =>
    (match op with
      | .resize n _ _ => decide (net.size ≤ n)
      | _ => true) && growOnly M (applyOp M net op) ops

/-- Both endpoints of every stored link are valid neuron indices. -/
def linksInRange (net : Network N) : Prop :=
  ∀ e ∈ net.links, e.1.1 < net.size ∧ e.1.2 < net.size

/-- No stored link is a self-loop and no key is stored twice. -/
def linksSimple (net : Network N) : Prop :=
  (∀ e ∈ net.links, e.1.1 ≠ e.1.2) ∧ (net.links.map Prod.fst).Nodup

/-! ## The drive as the specification words it -/

/-- The gain of spec §4.4: `0.4` for an inhibitory neuron, `1` otherwise. -/
def specGain (M : NeuronModel N) (x : N) : ℚ :=
  if M.is_inhibitory x then 4 / 10 else 1

/-- The drive of spec §4.4:
`gain(i) * thalamic_input[i] + 0.5 * excitatory_sum(i) + inhibitory_sum(i)`, the sums
ranging over the outgoing links of `i` whose target fired, split by whether the target is
inhibitory. -/
def specDrive (M : NeuronModel N) (net : Network N) (fired : List Nat)
    (thalamic : List ℚ) (i : Nat) : ℚ :=
  specGain M (net.neuron M i) * thalamic.getD i 0
    + 1 / 2 * ((net.links.filter (fun e =>
        decide (e.1.1 = i) && (decide (e.1.2 ∈ fired)
          && !M.is_inhibitory (net.neuron M e.1.2)))).map Prod.snd).sum
    + ((net.links.filter (fun e =>
        decide (e.1.1 = i) && (decide (e.1.2 ∈ fired)
          && M.is_inhibitory (net.neuron M e.1.2)))).map Prod.snd).sum

/-! ## A sample neuron -/

/-- The state of the sample neuron. -/
structure SampleNeuron where
  potential : ℚ
  recovery : ℚ
  current : ℚ
  inhibitory : Bool
  deriving DecidableEq

/-- Modelled from the spec: class `Neuron` (its source is not among the files of
`src/`).  A small instance of the contract of spec §3, used only to evaluate the network
code on concrete inputs: a neuron fires above potential 30, `reset` returns the potential
to -65, `input` accumulates the drive, `step` adds the accumulated drive to the potential,
and the type `FS` is the inhibitory one. -/
def sampleModel : NeuronModel SampleNeuron where
  fresh := ⟨-65, 0, 0, false⟩
  firing x := decide (30 < x.potential)
  reset x := { x with potential := -65, recovery := x.recovery + 8 }
  input x v := { x with current := x.current + v }
  step x := { x with potential := x.potential + x.current, current := 0 }
  is_inhibitory x := x.inhibitory
  type_exists ty := ty == "RS" || ty == "FS"
  set_default_params x ty noise :=
    { x with recovery := x.recovery + noise, inhibitory := ty == "FS" }

/-- Three sample neurons (0 inhibitory, 2 above the firing threshold) with the links
`(1,0)` and `(1,2)`. -/
def sampleNet : Network SampleNeuron :=
  ⟨[⟨-65, 0, 0, true⟩, ⟨-65, 0, 0, false⟩, ⟨40, 0, 0, false⟩],
    [((1, 0), -4), ((1, 2), 3)]⟩

/-- One resting inhibitory sample neuron, no links. -/
def sampleInhibitory : Network SampleNeuron := ⟨[⟨-65, 0, 0, true⟩], []⟩

/-- One resting excitatory sample neuron, no links. -/
def sampleExcitatory : Network SampleNeuron := ⟨[⟨-65, 0, 0, false⟩], []⟩

/-- A sequence of calls in which the last `resize` shrinks the network below the target of
a stored link. -/
def shrinkingOps : List Op :=
  [.resize 2 0 (fun _ => 0), .add_link 0 1 1, .resize 1 0 (fun _ => 0)]

/-- A sequence of calls using every operation, in which no `resize` shrinks. -/
def growingOps : List Op :=
  [.resize 3 (1 / 3) (fun _ => 0), .add_link 0 1 1,
    .random_connect (fun _ => 2) (fun node nn => (node + nn) % 3) (fun _ _ => 1),
    .step [0, 0, 0], .resize 4 0 (fun _ => 0), .add_link 3 0 2]

/-! ## The type assignment as the specification words it -/

/-- The sum of the counts of the known types of a type map. -/
def knownTotal (M : NeuronModel N) : List (String × Nat) → Nat
  | [] => 0
  | (ty, cnt) :: rest => (if M.type_exists ty then cnt else 0) + knownTotal M rest

/-- The type name of spec §4.2 and §7 for the slot at position `k`, counted from the first
slot not yet claimed: the known types take consecutive runs of `count` slots in key order,
an unknown type takes none, and a slot no run reaches gets the excitatory default `RS`. -/
def specSlotType (M : NeuronModel N) : List (String × Nat) → Nat → String
  | [], _ => "RS"
  | (ty, cnt) :: rest, k =>
    if M.type_exists ty then
      if k < cnt then ty else specSlotType M rest (k - cnt)
    else specSlotType M rest k

/-- The links of a network are in the strict key order of `std::map`. -/
def linksSorted (net : Network N) : Prop :=
  net.links.Pairwise (fun e1 e2 => keyLt e1.1 e2.1 = true)

/-! ## The random source (`random.cpp`) -/

/-- The parts of the C++ standard library used by `random.cpp`, over an engine state `G`:
the engine `std::mt19937` constructed from a seed, and one draw from a freshly constructed
distribution object with the given parameters, returning the value drawn and the engine
after the draw. -/
structure StdRandom (G : Type) where
  /-- The constructor `std::mt19937(seed)`. -/
  mt19937 : Nat → G
  /-- The call `std::uniform_real_distribution<>(lower, upper)(rng)`. -/
  uniform_real_distribution : ℚ → ℚ → G → ℚ × G
  /-- The call `std::normal_distribution<>(mean, sd)(rng)`. -/
  normal_distribution : ℚ → ℚ → G → ℚ × G
  /-- The call `std::poisson_distribution<>(mean)(rng)`. -/
  poisson_distribution : ℚ → G → Int × G

/-- The data members of class `RandomNumbers`. -/
structure RandomNumbers (G : Type) where
  /-- The member `seed`. -/
  seed : Nat
  /-- The member `rng`. -/
  rng : G

variable {G : Type}

/-- The constructor `RandomNumbers(s)` (lines 4-14); `rd` is the value `std::random_device`
gives when it is asked. -/
def RandomNumbers.construct (L : StdRandom G) (s rd : Nat) : RandomNumbers G :=
  let seed := if s = 0 then rd else s
  ⟨seed, L.mt19937 seed⟩

/-- The function `uniform_double(lower, upper)` (lines 23-27). -/
def RandomNumbers.uniform_double (L : StdRandom G) (r : RandomNumbers G) (lower upper : ℚ) :
    ℚ × RandomNumbers G :=
  let d := L.uniform_real_distribution lower upper r.rng
  (d.1, { r with rng := d.2 })

/-- The function `normal(mean, sd)` (lines 36-40). -/
def RandomNumbers.normal (L : StdRandom G) (r : RandomNumbers G) (mean sd : ℚ) :
    ℚ × RandomNumbers G :=
  let d := L.normal_distribution mean sd r.rng
  (d.1, { r with rng := d.2 })

/-- The function `poisson(mean)` (lines 49-53). -/
def RandomNumbers.poisson (L : StdRandom G) (r : RandomNumbers G) (mean : ℚ) :
    Int × RandomNumbers G :=
  let d := L.poisson_distribution mean r.rng
  (d.1, { r with rng := d.2 })

/-- The loop shared by the vector forms (lines 18-20, 31-33, 44-46): every element of a
vector of length `len` is overwritten, in index order, by one scalar draw. -/
def fillDraws {α : Type} (draw : RandomNumbers G → α × RandomNumbers G) :
    Nat → RandomNumbers G → List α × RandomNumbers G
  | 0, r => ([], r)
  | len + 1, r =>
    let d := draw r
    let rest := fillDraws draw len d.2
    (d.1 :: rest.1, rest.2)

/-- A call of one of the draw functions of `RandomNumbers`; the vector forms are given the
length of the vector they fill. -/
inductive Draw where
  | uniform_double (lower upper : ℚ)
  | uniform_double_vector (len : Nat) (lower upper : ℚ)
  | normal (mean sd : ℚ)
  | normal_vector (len : Nat) (mean sd : ℚ)
  | poisson (mean : ℚ)
  | poisson_vector (len : Nat) (mean : ℚ)

/-- What a draw call produces. -/
inductive Drawn where
  | real (x : ℚ)
  | reals (xs : List ℚ)
  | int (k : Int)
  | ints (ks : List Int)
  deriving DecidableEq

/-- One draw call: its output and the random source after it. -/
def RandomNumbers.draw (L : StdRandom G) (r : RandomNumbers G) :
    Draw → Drawn × RandomNumbers G
  | .uniform_double lower upper =>
    let d := r.uniform_double L lower upper
    (.real d.1, d.2)
  | .uniform_double_vector len lower upper =>
    let d := fillDraws (fun x => x.uniform_double L lower upper) len r
    (.reals d.1, d.2)
  | .normal mean sd =>
    let d := r.normal L mean sd
    (.real d.1, d.2)
  | .normal_vector len mean sd =>
    let d := fillDraws (fun x => x.normal L mean sd) len r
    (.reals d.1, d.2)
  | .poisson mean =>
    let d := r.poisson L mean
    (.int d.1, d.2)
  | .poisson_vector len mean =>
    let d := fillDraws (fun x => x.poisson L mean) len r
    (.ints d.1, d.2)

/-- A sequence of draw calls: the outputs in call order and the random source after the
last call. -/
def RandomNumbers.drawAll (L : StdRandom G) :
    RandomNumbers G → List Draw → List Drawn × RandomNumbers G
  | r, [] => ([], r)
  | r, c :: cs =>
    let d := r.draw L c
    let rest := RandomNumbers.drawAll L d.2 cs
    (d.1 :: rest.1, rest.2)

/-- A small stand-in for the standard library, used only to evaluate the random source on
concrete inputs: a linear congruential engine and distributions that read one engine
value. -/
def sampleStd : StdRandom Nat where
  mt19937 seed := seed % 4294967296
  uniform_real_distribution lower upper g :=
    (lower + (upper - lower) * ((g % 1000 : Nat) : ℚ) / 1000,
      (g * 1103515245 + 12345) % 2147483648)
  normal_distribution mean sd g :=
    (mean + sd * (((g % 7 : Nat) : ℚ) - 3), (g * 1103515245 + 12345) % 2147483648)
  poisson_distribution mean g :=
    (((g % 5 : Nat) : Int) + truncInt mean, (g * 1103515245 + 12345) % 2147483648)

/-- A sequence of draw calls using every draw function. -/
def sampleDraws : List Draw :=
  [.uniform_double 0 1, .poisson_vector 3 2, .normal 0 1, .uniform_double_vector 2 1 3,
    .normal_vector 2 5 1, .poisson 4]

/-! ## A sample neuron that records its type -/

/-- The state of the second sample neuron: the type name and the jitter value it was last
given. -/
structure TypedNeuron where
  typeName : String
  jitter : ℚ
  deriving DecidableEq

/-- Modelled from the spec: class `Neuron` (its source is not among the files of
`src/`), here with a registry of three type names, `RS`, `FS` and `LTS`, the last two
inhibitory.  Used only to evaluate `resize` and `set_default_params` on concrete inputs. -/
def typedModel : NeuronModel TypedNeuron where
  fresh := ⟨"RS", 0⟩
  firing _ := false
  reset x := x
  input x _ := x
  step x := x
  is_inhibitory x := x.typeName == "FS" || x.typeName == "LTS"
  type_exists ty := ty == "RS" || ty == "FS" || ty == "LTS"
  set_default_params _ ty noise := ⟨ty, noise⟩

/-- Three default-constructed typed neurons, no links. -/
def typedNet : Network TypedNeuron := ⟨[⟨"RS", 0⟩, ⟨"RS", 0⟩, ⟨"RS", 0⟩], []⟩

/-- A type map whose known counts sum to `2^64`: the `size_t` sum `kmax` wraps to 0 at
its second entry. -/
def wrappingTypes : List (String × Nat) := [("FS", 1), ("LTS", 18446744073709551615)]

/-- A type map with an unknown name between two known ones. -/
def mixedTypes : List (String × Nat) := [("FS", 1), ("IB", 1), ("LTS", 1)]

/-- Sampled out-degrees for three neurons: one above `N - 1`, one below, one zero. -/
def sampleDegrees : Nat → Int := fun i => if i = 0 then 5 else if i = 1 then 1 else 0

/-- Shuffle results for three neurons: the rotation of `[0,1,2]` by `node`. -/
def sampleShuffles : Nat → Nat → Nat := fun node nn => (node + nn) % 3

/-- The `double` 0.1. -/
def tenth : ℚ := 3602879701896397 / 36028797018963968

/-- The `double` 0.4. -/
def fourTenths : ℚ := 3602879701896397 / 9007199254740992

/-- Four resting excitatory sample neurons with the links `(0,1)` and `(0,3)`, both of
weight 0.1. -/
def roundingNet : Network SampleNeuron :=
  ⟨[⟨-65, 0, 0, false⟩, ⟨-65, 0, 0, false⟩, ⟨-65, 0, 0, false⟩, ⟨-65, 0, 0, false⟩],
    [((0, 1), tenth), ((0, 3), tenth)]⟩

/-- Two resting excitatory sample neurons, no links, for weights that may be NaN. -/
def nanNet : NetworkD SampleNeuron :=
  ⟨[⟨-65, 0, 0, false⟩, ⟨-65, 0, 0, false⟩], []⟩

/-- Two links out of neuron 0 inserted in increasing order of target. -/
def insertionOrderA : List Op :=
  [.resize 3 0 (fun _ => 0), .add_link 0 1 1, .add_link 0 2 5]

/-- The same two links inserted in decreasing order of target. -/
def insertionOrderB : List Op :=
  [.resize 3 0 (fun _ => 0), .add_link 0 2 5, .add_link 0 1 1]

/-! ## Lemmas on the containers -/

theorem mapCount_eq_zero_iff (links : List Link) (k : LinkKey) :
    mapCount links k = 0 ↔ ∀ v, (k, v) ∉ links := by
  unfold mapCount
  constructor
  · intro h v hv
    have : links.any (fun e => e.1 == k) = true := by
      rw [List.any_eq_true]
      exact ⟨(k, v), hv, by simp⟩
    simp [this] at h
  · intro h
    have : ¬ (links.any (fun e => e.1 == k) = true) := by
      rw [List.any_eq_true]
      rintro ⟨⟨k1, v⟩, hmem, hk⟩
      have hk1 : k1 = k := by simpa using hk
      subst hk1
      exact h v hmem
    simp [this]

theorem mapInsert_perm (links : List Link) (k : LinkKey) (v : ℚ)
    (h : ∀ w, (k, w) ∉ links) : (mapInsert links k v).Perm ((k, v) :: links) := by
  induction links with
  | nil => simp [mapInsert]
  | cons e es ih =>
    unfold mapInsert
    split
    · exact List.Perm.refl _
    · split
      · rename_i hk
        exact absurd (by rw [← hk]; exact List.mem_cons_self _ _) (h e.2)
      · have h1 : ∀ w, (k, w) ∉ es := fun w hw => h w (List.mem_cons_of_mem _ hw)
        exact ((ih h1).cons e).trans (List.Perm.swap _ _ _)

/-! ## `add_link` -/

theorem add_link_fst (M : NeuronModel N) (net : Network N) (a b : Nat) (str : ℚ) :
    (add_link M net a b str).1 = true ↔
      (a ≠ b ∧ a < net.size ∧ b < net.size ∧ minStrength ≤ str ∧
        ∀ w, ((a, b), w) ∉ net.links) := by
  unfold add_link
  split
  · rename_i h
    simp only [Bool.false_eq_true, false_iff]
    rintro ⟨h1, h2, h3, h4, -⟩
    rcases h with h | h | h | h
    · exact h1 h
    · exact absurd h2 (Nat.not_lt.mpr h)
    · exact absurd h3 (Nat.not_lt.mpr h)
    · exact absurd h4 (not_le.mpr h)
  · rename_i h
    push_neg at h
    obtain ⟨h1, h2, h3, h4⟩ := h
    split
    · rename_i hc
      simp only [Bool.false_eq_true, false_iff]
      rintro ⟨-, -, -, -, h5⟩
      exact hc ((mapCount_eq_zero_iff _ _).mpr h5)
    · rename_i hc
      simp only [true_iff]
      exact ⟨h1, h2, h3, h4, (mapCount_eq_zero_iff _ _).mp (not_not.mp hc)⟩

theorem add_link_of_false (M : NeuronModel N) (net : Network N) (a b : Nat) (str : ℚ)
    (h : (add_link M net a b str).1 = false) : (add_link M net a b str).2 = net := by
  unfold add_link at h ⊢
  split
  · rfl
  · split
    · rfl
    · rename_i h1 h2
      simp [h1, h2] at h

theorem add_link_of_true (M : NeuronModel N) (net : Network N) (a b : Nat) (str : ℚ)
    (h : (add_link M net a b str).1 = true) :
    (add_link M net a b str).2 =
      ⟨net.neurons, mapInsert net.links (a, b)
          (if M.is_inhibitory (net.neuron M b) then str * (-2) else str)⟩ := by
  unfold add_link at h ⊢
  split
  · rename_i h1
    simp [h1] at h
  · split
    · rename_i h1 h2
      simp [h1, h2] at h
    · rfl

theorem add_link_neurons (M : NeuronModel N) (net : Network N) (a b : Nat) (str : ℚ) :
    (add_link M net a b str).2.neurons = net.neurons := by
  cases h : (add_link M net a b str).1
  · rw [add_link_of_false M net a b str h]
  · rw [add_link_of_true M net a b str h]

theorem add_link_size (M : NeuronModel N) (net : Network N) (a b : Nat) (str : ℚ) :
    (add_link M net a b str).2.size = net.size := by
  simp [Network.size, add_link_neurons]

/-! ## Lengths: `resize`, `set_default_params`, `step` -/

theorem length_modifyAt (l : List N) (i : Nat) (f : N → N) :
    (modifyAt l i f).length = l.length := by
  unfold modifyAt
  split <;> simp

theorem getElem?_modifyAt (l : List N) (i j : Nat) (f : N → N) :
    (modifyAt l i f)[j]? = if j = i then l[j]?.map f else l[j]? := by
  unfold modifyAt
  split
  · rename_i x hx
    by_cases hji : j = i
    · subst hji
      have hlt : j < l.length := by
        by_contra hge
        have := List.getElem?_eq_none (Nat.le_of_not_lt hge)
        simp [hx] at this
      simp [hx, List.getElem?_set, hlt]
    · have hij : i ≠ j := fun h => hji h.symm
      simp [hji, List.getElem?_set, hij]
  · rename_i hx
    by_cases hji : j = i
    · subst hji
      simp [hx]
    · simp [hji]

theorem length_fillRun (M : NeuronModel N) (ty : String) (noise : Nat → ℚ) (start : Nat) :
    ∀ (cnt k : Nat) (ns : List N), (fillRun M ty noise start cnt k ns).length = ns.length
  | 0, _, _ => rfl
  | cnt + 1, k, ns => by
    unfold fillRun
    rw [length_fillRun M ty noise start cnt (k + 1), length_modifyAt]

theorem length_typeLoop (M : NeuronModel N) (noise : Nat → ℚ) (start ssize : Nat) :
    ∀ (types : List (String × Nat)) (st : Nat × Nat × List N),
      (typeLoop M noise start ssize types st).2.2.length = st.2.2.length
  | [], _ => rfl
  | (ty, cnt) :: rest, (k, kmax, ns) => by
    unfold typeLoop
    split
    · simp only []
      rw [length_typeLoop M noise start ssize rest, length_fillRun]
    · rw [length_typeLoop M noise start ssize rest]

theorem set_default_params_size (M : NeuronModel N) (net : Network N)
    (types : List (String × Nat)) (start : Nat) (noise : Nat → ℚ) :
    (set_default_params M net types start noise).size = net.size := by
  simp [set_default_params, Network.size, length_fillRun, length_typeLoop]

theorem set_default_params_links (M : NeuronModel N) (net : Network N)
    (types : List (String × Nat)) (start : Nat) (noise : Nat → ℚ) :
    (set_default_params M net types start noise).links = net.links := rfl

theorem length_vecResize (d : N) (l : List N) (n : Nat) : (vecResize d l n).length = n := by
  simp [vecResize]
  omega

theorem resize_size (M : NeuronModel N) (net : Network N) (n : Nat) (inhib : ℚ)
    (noise : Nat → ℚ) : (resize M net n inhib noise).size = n := by
  unfold resize
  simp only []
  split
  · simp [Network.size, length_vecResize]
  · rw [set_default_params_size]
    simp [Network.size, length_vecResize]

theorem resize_links (M : NeuronModel N) (net : Network N) (n : Nat) (inhib : ℚ)
    (noise : Nat → ℚ) : (resize M net n inhib noise).links = net.links := by
  unfold resize
  simp only []
  split
  · rfl
  · rw [set_default_params_links]

theorem resize_neurons_of_le (M : NeuronModel N) (net : Network N) (n : Nat) (inhib : ℚ)
    (noise : Nat → ℚ) (h : n ≤ net.size) :
    (resize M net n inhib noise).neurons = net.neurons.take n := by
  unfold resize
  simp only [h, if_true]
  have : n - net.neurons.length = 0 := by
    simp only [Network.size] at h
    omega
  simp [vecResize, this]

/-! ## The loops of `random_connect` -/

theorem scanLoop_induct (M : NeuronModel N) (P : Network N → Prop)
    (hP : ∀ net a b s, P net → P (add_link M net a b s).2)
    (node : Nat) (deg : Int) (nodeidx : Nat → Nat) (strength : Nat → ℚ) :
    ∀ (fuel nn nl : Nat) (net : Network N), P net →
      P (scanLoop M node deg nodeidx strength fuel nn nl net).2
  | 0, _, _, _, h => h
  | fuel + 1, nn, nl, net, h => by
    unfold scanLoop
    split
    · exact scanLoop_induct M P hP node deg nodeidx strength fuel _ _ _ (hP _ _ _ _ h)
    · exact h

theorem connectLoop_induct (M : NeuronModel N) (P : Network N → Prop)
    (hP : ∀ net a b s, P net → P (add_link M net a b s).2)
    (degrees : Nat → Int) (shuffles : Nat → Nat → Nat) (strengths : Nat → Nat → ℚ) :
    ∀ (nodes : List Nat) (st : Nat × Network N), P st.2 →
      P (connectLoop M degrees shuffles strengths nodes st).2
  | [], _, h => h
  | node :: rest, (num, net), h => by
    unfold connectLoop
    exact connectLoop_induct M P hP degrees shuffles strengths rest _
      (scanLoop_induct M P hP node _ _ _ _ _ _ _ h)

theorem random_connect_induct (M : NeuronModel N) (P : Network N → Prop)
    (hP : ∀ net a b s, P net → P (add_link M net a b s).2)
    (net : Network N) (h0 : P ⟨net.neurons, []⟩)
    (degrees : Nat → Int) (shuffles : Nat → Nat → Nat) (strengths : Nat → Nat → ℚ) :
    P (random_connect M net degrees shuffles strengths).2 := by
  unfold random_connect
  exact connectLoop_induct M P hP degrees shuffles strengths _ _ h0

theorem random_connect_neurons (M : NeuronModel N) (net : Network N)
    (degrees : Nat → Int) (shuffles : Nat → Nat → Nat) (strengths : Nat → Nat → ℚ) :
    (random_connect M net degrees shuffles strengths).2.neurons = net.neurons :=
  random_connect_induct M (fun x => x.neurons = net.neurons)
    (fun x a b s h => (add_link_neurons M x a b s).trans h) net rfl degrees shuffles
    strengths

/-! ## The loops of `step` -/

theorem foldl_drop_copy (M : NeuronModel N) :
    ∀ (l stored : List N),
      l.foldl (fun stored x => let _neuron := M.step x; stored) stored = stored
  | [], _ => rfl
  | _ :: xs, stored => foldl_drop_copy M xs stored

theorem integrateLoop_eq (M : NeuronModel N) (ns : List N) : integrateLoop M ns = ns :=
  foldl_drop_copy M ns ns

theorem firingLoop_append (M : NeuronModel N) :
    ∀ (l1 l2 : List Nat) (st : List N × List Nat),
      firingLoop M (l1 ++ l2) st = firingLoop M l2 (firingLoop M l1 st)
  | [], _, _ => rfl
  | i :: rest, l2, (ns, fired) => by
    simp only [List.cons_append, firingLoop]
    split
    · exact firingLoop_append M rest l2 _
    · exact firingLoop_append M rest l2 _

theorem inputLoop_append (M : NeuronModel N) (links : List Link) (fired : List Nat)
    (thalamic : List ℚ) :
    ∀ (l1 l2 : List Nat) (ns : List N),
      inputLoop M links fired thalamic (l1 ++ l2) ns =
        inputLoop M links fired thalamic l2 (inputLoop M links fired thalamic l1 ns)
  | [], _, _ => rfl
  | i :: rest, l2, ns => by
    simp only [List.cons_append, inputLoop]
    exact inputLoop_append M links fired thalamic rest l2 _

theorem setInsert_of_lt : ∀ (l : List Nat) (i : Nat), (∀ j ∈ l, j < i) →
    setInsert l i = l ++ [i]
  | [], _, _ => rfl
  | j :: js, i, h => by
    have hj : j < i := h j (List.mem_cons_self _ _)
    have h1 : ¬ i < j := by omega
    have h2 : ¬ j = i := by omega
    simp only [setInsert, h1, h2, if_false, List.cons_append]
    rw [setInsert_of_lt js i (fun k hk => h k (List.mem_cons_of_mem _ hk))]

/-- The state of the first loop of `step` after the indices below `n`: the firing set holds
the indices whose neuron fired, and exactly those neurons are reset. -/
theorem firingLoop_range (M : NeuronModel N) (ns : List N) (n : Nat) :
    (firingLoop M (List.range n) (ns, [])).2 =
        (List.range n).filter (fun i => M.firing (ns.getD i M.fresh)) ∧
      (firingLoop M (List.range n) (ns, [])).1.length = ns.length ∧
      ∀ j, (firingLoop M (List.range n) (ns, [])).1[j]? =
        if j < n then ns[j]?.map (fun x => if M.firing x then M.reset x else x) else ns[j]? := by
  induction n with
  | zero => simp [firingLoop]
  | succ n ih =>
    obtain ⟨ih1, ih2, ih3⟩ := ih
    rw [List.range_succ, firingLoop_append]
    generalize hr : firingLoop M (List.range n) (ns, []) = r at ih1 ih2 ih3
    obtain ⟨ns1, fired⟩ := r
    simp only at ih1 ih2 ih3
    have hget : ns1.getD n M.fresh = ns.getD n M.fresh := by
      have := ih3 n
      simp only [lt_irrefl, if_false] at this
      simp [List.getD_eq_getElem?_getD, this]
    have hlt : ∀ j ∈ fired, j < n := by
      intro j hj
      rw [ih1] at hj
      exact List.mem_range.mp (List.mem_filter.mp hj).1
    simp only [firingLoop, hget, List.filter_append]
    by_cases hf : M.firing (ns.getD n M.fresh) = true
    · simp only [hf, if_true]
      refine ⟨?_, ?_, ?_⟩
      · rw [setInsert_of_lt fired n hlt, ih1]
        simp only [List.filter, hf]
      · rw [length_modifyAt, ih2]
      · intro j
        rw [getElem?_modifyAt, ih3 j]
        by_cases hjn : j = n
        · subst hjn
          simp only [lt_irrefl, if_false, if_true, Nat.lt_succ_self]
          cases hx : ns[j]? with
          | none => rfl
          | some x =>
            have : ns.getD j M.fresh = x := by simp [List.getD_eq_getElem?_getD, hx]
            rw [this] at hf
            simp [hf]
        · have h1 : (j < n + 1) = (j < n) := by
            apply propext
            omega
          simp only [hjn, if_false, h1]
    · have hf2 : M.firing (ns.getD n M.fresh) = false := by simpa using hf
      simp only [hf2, Bool.false_eq_true, if_false]
      refine ⟨?_, ih2, ?_⟩
      · rw [ih1]
        simp only [List.filter, hf2, List.append_nil]
      · intro j
        rw [ih3 j]
        by_cases hjn : j = n
        · subst hjn
          simp only [lt_irrefl, if_false, if_true, Nat.lt_succ_self]
          cases hx : ns[j]? with
          | none => rfl
          | some x =>
            have : ns.getD j M.fresh = x := by simp [List.getD_eq_getElem?_getD, hx]
            rw [this] at hf2
            simp [hf2]
        · have h1 : (j < n + 1) = (j < n) := by
            apply propext
            omega
          simp only [h1]

/-- The state of the second loop of `step` after the indices below `n`: neuron `j < n` has
received `input` once, with the drive computed from the vector as it was when the loop
reached `j`. -/
theorem inputLoop_range (M : NeuronModel N) (links : List Link) (fired : List Nat)
    (thalamic : List ℚ) (ns : List N) (n : Nat) :
    (inputLoop M links fired thalamic (List.range n) ns).length = ns.length ∧
      ∀ j, (inputLoop M links fired thalamic (List.range n) ns)[j]? =
        if j < n then
          ns[j]?.map (fun x => M.input x
            (drive M (inputLoop M links fired thalamic (List.range j) ns) links fired
              thalamic j))
        else ns[j]? := by
  induction n with
  | zero => simp [inputLoop]
  | succ n ih =>
    obtain ⟨ih1, ih2⟩ := ih
    rw [List.range_succ, inputLoop_append]
    simp only [inputLoop]
    refine ⟨by rw [length_modifyAt, ih1], ?_⟩
    intro j
    rw [getElem?_modifyAt, ih2 j]
    by_cases hjn : j = n
    · subst hjn
      simp only [lt_irrefl, if_false, if_true, Nat.lt_succ_self]
    · have h1 : (j < n + 1) = (j < n) := by
        apply propext
        omega
      simp only [hjn, if_false, h1]

theorem step_fst (M : NeuronModel N) (net : Network N) (thalamic : List ℚ) :
    (step M net thalamic).1 =
      (List.range net.size).filter (fun i => M.firing (net.neuron M i)) := by
  unfold step
  exact (firingLoop_range M net.neurons net.size).1

theorem step_links (M : NeuronModel N) (net : Network N) (thalamic : List ℚ) :
    (step M net thalamic).2.links = net.links := rfl

theorem step_neurons (M : NeuronModel N) (net : Network N) (thalamic : List ℚ) :
    (step M net thalamic).2.neurons =
      inputLoop M net.links (step M net thalamic).1 thalamic (List.range net.size)
        (firingLoop M (List.range net.size) (net.neurons, [])).1 := by
  unfold step
  simp only [integrateLoop_eq]

theorem step_size (M : NeuronModel N) (net : Network N) (thalamic : List ℚ) :
    (step M net thalamic).2.size = net.size := by
  unfold Network.size
  rw [step_neurons, (inputLoop_range M _ _ _ _ _).1, (firingLoop_range M _ _).2.1]

/-- The phase-1 vector of `step`: every neuron that fires is reset, the others are kept. -/
theorem firingLoop_neurons (M : NeuronModel N) (ns : List N) :
    (firingLoop M (List.range ns.length) (ns, [])).1 =
      ns.map (fun x => if M.firing x then M.reset x else x) := by
  apply List.ext_getElem?
  intro j
  rw [(firingLoop_range M ns ns.length).2.2 j, List.getElem?_map]
  split
  · rfl
  · rename_i h
    rw [List.getElem?_eq_none (Nat.le_of_not_lt h)]
    rfl

/-! ## `neighbors`, `degree` and the drive -/

theorem foldl_push_filter (n : Nat) :
    ∀ (l : List Link) (acc : List (Nat × ℚ)),
      l.foldl (fun acc link => if link.1.1 = n then acc ++ [(link.1.2, link.2)] else acc) acc =
        acc ++ (l.filter (fun e => decide (e.1.1 = n))).map (fun e => (e.1.2, e.2))
  | [], acc => by simp
  | e :: es, acc => by
    rw [List.foldl_cons, foldl_push_filter n es]
    by_cases h : e.1.1 = n
    · simp [h, List.filter_cons]
    · simp [h, List.filter_cons]

theorem neighbors_eq (net : Network N) (n : Nat) :
    neighbors net n =
      (net.links.filter (fun e => decide (e.1.1 = n))).map (fun e => (e.1.2, e.2)) := by
  unfold neighbors
  rw [foldl_push_filter]
  simp

theorem foldl_add_snd :
    ∀ (l : List (Nat × ℚ)) (s : ℚ),
      l.foldl (fun s nb => s + nb.2) s = s + (l.map Prod.snd).sum
  | [], s => by simp
  | x :: xs, s => by
    rw [List.foldl_cons, foldl_add_snd xs]
    simp [add_assoc]

theorem sumWeights_eq (l : List (Nat × ℚ)) : sumWeights l = (l.map Prod.snd).sum := by
  unfold sumWeights
  rw [foldl_add_snd]
  simp

theorem degree_eq (net : Network N) (n : Nat) :
    degree net n =
      ((net.links.filter (fun e => decide (e.1.1 = n))).length,
        ((net.links.filter (fun e => decide (e.1.1 = n))).map Prod.snd).sum) := by
  unfold degree
  simp only [neighbors_eq, foldl_add_snd, zero_add]
  split
  · rename_i h
    have h0 : net.links.filter (fun e => decide (e.1.1 = n)) = [] := by
      simpa [List.isEmpty_iff] using h
    simp [h0]
  · simp [List.map_map, Function.comp_def]

theorem foldl_splitFiring (M : NeuronModel N) (ns : List N) (fired : List Nat) :
    ∀ (nbrs : List (Nat × ℚ)) (acc : List (Nat × ℚ) × List (Nat × ℚ)),
      nbrs.foldl
          (fun acc nb =>
            if nb.1 ∈ fired then
              if M.is_inhibitory (ns.getD nb.1 M.fresh) then (acc.1, acc.2 ++ [nb])
              else (acc.1 ++ [nb], acc.2)
            else acc)
          acc =
        (acc.1 ++ nbrs.filter (fun nb =>
            decide (nb.1 ∈ fired) && !M.is_inhibitory (ns.getD nb.1 M.fresh)),
          acc.2 ++ nbrs.filter (fun nb =>
            decide (nb.1 ∈ fired) && M.is_inhibitory (ns.getD nb.1 M.fresh)))
  | [], acc => by simp
  | nb :: rest, acc => by
    rw [List.foldl_cons, foldl_splitFiring M ns fired rest]
    by_cases h1 : nb.1 ∈ fired
    · cases h2 : M.is_inhibitory (ns.getD nb.1 M.fresh)
      · simp [h1, h2, List.filter_cons, -List.getD_eq_getElem?_getD]
      · simp [h1, h2, List.filter_cons, -List.getD_eq_getElem?_getD]
    · simp [h1, List.filter_cons]

theorem splitFiring_eq (M : NeuronModel N) (ns : List N) (fired : List Nat)
    (nbrs : List (Nat × ℚ)) :
    splitFiring M ns fired nbrs =
      (nbrs.filter (fun nb =>
          decide (nb.1 ∈ fired) && !M.is_inhibitory (ns.getD nb.1 M.fresh)),
        nbrs.filter (fun nb =>
          decide (nb.1 ∈ fired) && M.is_inhibitory (ns.getD nb.1 M.fresh))) := by
  unfold splitFiring
  rw [foldl_splitFiring]
  simp

theorem gainInt_eq (M : NeuronModel N) (x : N) :
    gainInt M x = if M.is_inhibitory x then 0 else 1 := by
  have h : truncInt (4 / 10) = 0 := by decide!
  unfold gainInt
  rw [h]

theorem filter_neighbors_sum (i : Nat) (c : Nat → Bool) :
    ∀ (links : List Link),
      ((((links.filter (fun e => decide (e.1.1 = i))).map (fun e => (e.1.2, e.2))).filter
          (fun nb => c nb.1)).map Prod.snd).sum =
        ((links.filter (fun e => decide (e.1.1 = i) && c e.1.2)).map Prod.snd).sum
  | [] => rfl
  | e :: es => by
    have ih := filter_neighbors_sum i c es
    by_cases h1 : e.1.1 = i
    · cases h2 : c e.1.2
      · simp [List.filter_cons, h1, h2] at ih ⊢
        exact ih
      · simp [List.filter_cons, h1, h2] at ih ⊢
        exact ih
    · simp [List.filter_cons, h1] at ih ⊢
      exact ih

/-- What line 155 computes: the gain is the truncated `int w`, the sums are those of the
outgoing links of `i` whose target is in the firing set, split by the target's type. -/
theorem drive_eq (M : NeuronModel N) (net : Network N) (fired : List Nat)
    (thalamic : List ℚ) (i : Nat) :
    drive M net.neurons net.links fired thalamic i =
      (if M.is_inhibitory (net.neuron M i) then 0 else 1) * thalamic.getD i 0
        + 1 / 2 * ((net.links.filter (fun e =>
            decide (e.1.1 = i) && (decide (e.1.2 ∈ fired)
              && !M.is_inhibitory (net.neuron M e.1.2)))).map Prod.snd).sum
        + ((net.links.filter (fun e =>
            decide (e.1.1 = i) && (decide (e.1.2 ∈ fired)
              && M.is_inhibitory (net.neuron M e.1.2)))).map Prod.snd).sum := by
  unfold drive
  simp only [splitFiring_eq, sumWeights_eq, neighbors_eq, gainInt_eq, Network.neuron]
  have hg : (((if M.is_inhibitory (net.neurons.getD i M.fresh) = true then (0 : Int)
      else 1 : Int)) : ℚ)
      = if M.is_inhibitory (net.neurons.getD i M.fresh) = true then (0 : ℚ) else 1 := by
    split <;> simp
  rw [hg]
  rw [filter_neighbors_sum i
      (fun t => decide (t ∈ fired) && !M.is_inhibitory (net.neurons.getD t M.fresh)),
    filter_neighbors_sum i
      (fun t => decide (t ∈ fired) && M.is_inhibitory (net.neurons.getD t M.fresh))]

/-! ## Invariants of the link map -/

theorem add_link_links_perm (M : NeuronModel N) (net : Network N) (a b : Nat) (str : ℚ)
    (h : (add_link M net a b str).1 = true) :
    (add_link M net a b str).2.links.Perm
      (((a, b), if M.is_inhibitory (net.neuron M b) then str * (-2) else str) ::
        net.links) := by
  rw [add_link_of_true M net a b str h]
  exact mapInsert_perm _ _ _ ((add_link_fst M net a b str).mp h).2.2.2.2

theorem add_link_linksInRange (M : NeuronModel N) (net : Network N) (a b : Nat) (str : ℚ)
    (hinv : linksInRange net) : linksInRange (add_link M net a b str).2 := by
  cases h : (add_link M net a b str).1
  · rw [add_link_of_false M net a b str h]
    exact hinv
  · intro e he
    rw [add_link_size]
    have hmem := (add_link_links_perm M net a b str h).mem_iff.mp he
    rcases List.mem_cons.mp hmem with heq | hold
    · obtain ⟨-, ha, hb, -⟩ := (add_link_fst M net a b str).mp h
      subst heq
      exact ⟨ha, hb⟩
    · exact hinv e hold

theorem add_link_linksSimple (M : NeuronModel N) (net : Network N) (a b : Nat) (str : ℚ)
    (hinv : linksSimple net) : linksSimple (add_link M net a b str).2 := by
  cases h : (add_link M net a b str).1
  · rw [add_link_of_false M net a b str h]
    exact hinv
  · obtain ⟨hab, -, -, -, hnew⟩ := (add_link_fst M net a b str).mp h
    have hperm := add_link_links_perm M net a b str h
    refine ⟨?_, ?_⟩
    · intro e he
      rcases List.mem_cons.mp (hperm.mem_iff.mp he) with heq | hold
      · subst heq
        exact hab
      · exact hinv.1 e hold
    · refine ((hperm.map Prod.fst).nodup_iff).mpr ?_
      rw [List.map_cons, List.nodup_cons]
      refine ⟨?_, hinv.2⟩
      intro hk
      obtain ⟨e, he, hke⟩ := List.mem_map.mp hk
      apply hnew e.2
      have hk1 : e.1 = (a, b) := hke
      have : ((a, b), e.2) = e := Prod.ext hk1.symm rfl
      rw [this]
      exact he

theorem applyOp_linksSimple (M : NeuronModel N) (net : Network N) (op : Op)
    (hinv : linksSimple net) : linksSimple (applyOp M net op) := by
  cases op with
  | resize n inhib noise =>
    simp only [applyOp, linksSimple, resize_links]
    exact hinv
  | add_link a b str => exact add_link_linksSimple M net a b str hinv
  | random_connect degrees shuffles strengths =>
    exact random_connect_induct M linksSimple (add_link_linksSimple M) net
      ⟨by simp, by simp⟩ degrees shuffles strengths
  | step thalamic => exact hinv

theorem runOps_linksSimple (M : NeuronModel N) :
    ∀ (ops : List Op) (net : Network N), linksSimple net → linksSimple (runOps M net ops)
  | [], _, h => h
  | op :: ops, net, h => runOps_linksSimple M ops _ (applyOp_linksSimple M net op h)

theorem applyOp_linksInRange (M : NeuronModel N) (net : Network N) (op : Op)
    (hgrow : ∀ n inhib noise, op = .resize n inhib noise → net.size ≤ n)
    (hinv : linksInRange net) : linksInRange (applyOp M net op) := by
  cases op with
  | resize n inhib noise =>
    have hn := hgrow n inhib noise rfl
    intro e he
    simp only [applyOp, resize_links, resize_size] at he ⊢
    have := hinv e he
    omega
  | add_link a b str => exact add_link_linksInRange M net a b str hinv
  | random_connect degrees shuffles strengths =>
    exact random_connect_induct M linksInRange (add_link_linksInRange M) net
      (by intro e he; simp at he) degrees shuffles strengths
  | step thalamic =>
    intro e he
    simp only [applyOp, step_links, step_size] at he ⊢
    exact hinv e he

theorem runOps_linksInRange (M : NeuronModel N) :
    ∀ (ops : List Op) (net : Network N), linksInRange net → growOnly M net ops = true →
      linksInRange (runOps M net ops)
  | [], _, h, _ => h
  | op :: ops, net, h, hg => by
    simp only [growOnly, Bool.and_eq_true] at hg
    refine runOps_linksInRange M ops _ (applyOp_linksInRange M net op ?_ h) hg.2
    intro n inhib noise hop
    subst hop
    simpa using hg.1

/-- After `step`, neuron `i` of the network is the pre-tick neuron, reset when it fired,
with `input` applied once; no `Neuron::step` has been applied to it. -/
theorem step_neurons_getElem? (M : NeuronModel N) (net : Network N) (thalamic : List ℚ)
    (i : Nat) (hi : i < net.size) :
    (step M net thalamic).2.neurons[i]? =
      some (M.input
        (if M.firing (net.neuron M i) then M.reset (net.neuron M i) else net.neuron M i)
        (drive M
          (inputLoop M net.links (step M net thalamic).1 thalamic (List.range i)
            (firingLoop M (List.range net.size) (net.neurons, [])).1)
          net.links (step M net thalamic).1 thalamic i)) := by
  rw [step_neurons, (inputLoop_range M _ _ _ _ _).2 i]
  simp only [hi, if_true]
  unfold Network.size at hi ⊢
  rw [firingLoop_neurons, List.getElem?_map, List.getElem?_eq_getElem hi]
  simp [Network.neuron, List.getD_eq_getElem?_getD, List.getElem?_eq_getElem hi]

/-! ## The claims -/

/-- The returned flag of `add_link` on a strength that is a number, the threshold being
`10^-6` itself: true exactly when `a != b`, `a < size()`, `b < size()`, the strength is at
least the threshold and no link keyed `(a,b)` is stored before the call. -/
theorem add_link_returns_true_iff (M : NeuronModel N) (net : Network N) (a b : Nat)
    (str : ℚ) :
    ((add_link M net a b str).1 = true ↔
        (a ≠ b ∧ a < net.size ∧ b < net.size ∧ minStrength ≤ str ∧
          ∀ w, ((a, b), w) ∉ net.links)) ∧
      ((add_link M net a b str).1 = false ↔
        ¬ (a ≠ b ∧ a < net.size ∧ b < net.size ∧ minStrength ≤ str ∧
          ∀ w, ((a, b), w) ∉ net.links)) := by
  refine ⟨add_link_fst M net a b str, ?_⟩
  rw [← add_link_fst M net a b str]
  simp

/-- C2: whenever `add_link(a, b, strength)` returns false the network after the call is the
network before it: the same neuron sequence and the same links with the same weights, the
duplicate-edge case included. -/
theorem add_link_rejection_atomic (M : NeuronModel N) (net : Network N) (a b : Nat)
    (str : ℚ) (h : (add_link M net a b str).1 = false) :
    (add_link M net a b str).2 = net :=
  add_link_of_false M net a b str h

/-- Witness of C2 on the duplicate edge `(1,2)` of `sampleNet`. -/
theorem add_link_rejection_atomic_witness :
    (add_link sampleModel sampleNet 1 2 5).1 = false ∧
      (add_link sampleModel sampleNet 1 2 5).2 = sampleNet :=
  ⟨by decide!, add_link_rejection_atomic sampleModel sampleNet 1 2 5 (by decide!)⟩

/-- C3: when `add_link(a, b, strength)` returns true, the neuron sequence is unchanged, no
link keyed `(a,b)` was stored before, and the links after the call are the links before it
plus exactly one entry keyed `(a,b)`, whose weight is `strength * -2.0` when the target `b`
is inhibitory and `strength` otherwise. -/
theorem add_link_success_effect (M : NeuronModel N) (net : Network N) (a b : Nat)
    (str : ℚ) (h : (add_link M net a b str).1 = true) :
    (add_link M net a b str).2.neurons = net.neurons ∧
      (∀ w, ((a, b), w) ∉ net.links) ∧
      (add_link M net a b str).2.links.Perm
        (((a, b), if M.is_inhibitory (net.neuron M b) then str * (-2) else str) ::
          net.links) :=
  ⟨add_link_neurons M net a b str, ((add_link_fst M net a b str).mp h).2.2.2.2,
    add_link_links_perm M net a b str h⟩

/-- Witness of C3: a link from neuron 2 to the inhibitory neuron 0 of `sampleNet`. -/
theorem add_link_success_effect_witness :
    (add_link sampleModel sampleNet 2 0 1).1 = true ∧
      ((add_link sampleModel sampleNet 2 0 1).2.neurons = sampleNet.neurons ∧
        (∀ w, ((2, 0), w) ∉ sampleNet.links) ∧
        (add_link sampleModel sampleNet 2 0 1).2.links.Perm
          (((2, 0), if sampleModel.is_inhibitory (sampleNet.neuron sampleModel 0)
              then (1 : ℚ) * (-2) else 1) :: sampleNet.links)) :=
  ⟨by decide!, add_link_success_effect sampleModel sampleNet 2 0 1 (by decide!)⟩

/-- C4, counterexample: `resize(1, 0)` on the three-neuron `sampleNet` has `n <= size()`,
yet it lowers `size()` to 1 and changes the neuron sequence. -/
theorem resize_shrinks_counterexample :
    1 ≤ sampleNet.size ∧
      (resize sampleModel sampleNet 1 0 (fun _ => 0)).size < sampleNet.size ∧
      (resize sampleModel sampleNet 1 0 (fun _ => 0)).neurons ≠ sampleNet.neurons := by
  decide!

/-- C4, amended: `resize(m, f)` leaves `size() = m` for every `m`; for `n <= size()`,
`resize(n, f)` leaves all links unchanged and keeps exactly the first `n` neurons (each
with its state and type), so the network is unchanged when `n = size()`. -/
theorem resize_not_above_size (M : NeuronModel N) (net : Network N) (n : Nat) (inhib : ℚ)
    (noise : Nat → ℚ) (h : n ≤ net.size) :
    (∀ m f z, (resize M net m f z).size = m) ∧
      (resize M net n inhib noise).neurons = net.neurons.take n ∧
      (resize M net n inhib noise).links = net.links ∧
      (n = net.size → resize M net n inhib noise = net) := by
  refine ⟨fun m f z => resize_size M net m f z, resize_neurons_of_le M net n inhib noise h,
    resize_links M net n inhib noise, ?_⟩
  intro hn
  have h1 := resize_neurons_of_le M net n inhib noise h
  have h2 := resize_links M net n inhib noise
  have h3 : net.neurons.take n = net.neurons := by
    rw [hn]
    exact List.take_length _
  rw [h3] at h1
  generalize resize M net n inhib noise = r at h1 h2
  cases r
  cases net
  simp only at h1 h2
  rw [h1, h2]

/-- Witness of C4 (amended) on `sampleNet` and `n = 1`. -/
theorem resize_not_above_size_witness :
    1 ≤ sampleNet.size ∧
      ((∀ m f z, (resize sampleModel sampleNet m f z).size = m) ∧
        (resize sampleModel sampleNet 1 0 (fun _ => 0)).neurons = sampleNet.neurons.take 1 ∧
        (resize sampleModel sampleNet 1 0 (fun _ => 0)).links = sampleNet.links ∧
        (1 = sampleNet.size → resize sampleModel sampleNet 1 0 (fun _ => 0) = sampleNet)) :=
  ⟨by decide!, resize_not_above_size sampleModel sampleNet 1 0 (fun _ => 0) (by decide!)⟩

/-- C5, counterexample: after `resize(2)`, `add_link(0,1,1)`, `resize(1)` from the empty
network the link `(0,1)` is stored while `size()` is 1. -/
theorem links_in_range_counterexample :
    ¬ (∀ e ∈ (runOps sampleModel Network.empty shrinkingOps).links,
        e.1.1 < (runOps sampleModel Network.empty shrinkingOps).size ∧
          e.1.2 < (runOps sampleModel Network.empty shrinkingOps).size) := by
  decide!

/-- C5, amended: `resize` to at least the current size, `add_link`, `random_connect` and
`step` each keep both endpoints of every stored link below `size()`; so the property holds
after every sequence of calls in which no `resize` shrinks the network, started from a
network where it holds (the empty network in particular). -/
theorem links_in_range_invariant (M : NeuronModel N) (net : Network N) (ops : List Op)
    (hinv : ∀ e ∈ net.links, e.1.1 < net.size ∧ e.1.2 < net.size)
    (hgrow : growOnly M net ops = true) :
    ∀ e ∈ (runOps M net ops).links,
      e.1.1 < (runOps M net ops).size ∧ e.1.2 < (runOps M net ops).size :=
  runOps_linksInRange M ops net hinv hgrow

/-- Witness of C5 (amended): the calls `growingOps` from the empty network. -/
theorem links_in_range_invariant_witness :
    (∀ e ∈ (Network.empty : Network SampleNeuron).links,
        e.1.1 < (Network.empty : Network SampleNeuron).size ∧
          e.1.2 < (Network.empty : Network SampleNeuron).size) ∧
      growOnly sampleModel Network.empty growingOps = true ∧
      ∀ e ∈ (runOps sampleModel Network.empty growingOps).links,
        e.1.1 < (runOps sampleModel Network.empty growingOps).size ∧
          e.1.2 < (runOps sampleModel Network.empty growingOps).size :=
  ⟨by decide!, by decide!,
    links_in_range_invariant sampleModel Network.empty growingOps (by decide!) (by decide!)⟩

/-- C6: in every network reached from the empty network by any sequence of `resize`,
`add_link`, `random_connect` and `step` calls, whatever the random generator returns, no
stored link is a self-loop, no key `(a,b)` is stored twice, and so at most one weight is
stored for each ordered pair. -/
theorem no_self_loop_no_duplicate (M : NeuronModel N) (ops : List Op) :
    (∀ e ∈ (runOps M Network.empty ops).links, e.1.1 ≠ e.1.2) ∧
      ((runOps M Network.empty ops).links.map Prod.fst).Nodup ∧
      ∀ a b w1 w2, ((a, b), w1) ∈ (runOps M Network.empty ops).links →
        ((a, b), w2) ∈ (runOps M Network.empty ops).links → w1 = w2 := by
  have h := runOps_linksSimple M ops Network.empty
    ⟨by simp [Network.empty], by simp [Network.empty]⟩
  refine ⟨h.1, h.2, ?_⟩
  intro a b w1 w2 h1 h2
  have := List.inj_on_of_nodup_map h.2 h1 h2 rfl
  exact (Prod.mk.inj this).2

/-- C7: for every network and every index `n` (one without outgoing links or one not below
`size()` included), `degree(n).count` is the number of stored links whose source is `n` and
`degree(n).valence` is the sum of the stored weights of those links (0 when there are
none). -/
theorem degree_count_valence (net : Network N) (n : Nat) :
    (degree net n).1 = (net.links.filter (fun e => decide (e.1.1 = n))).length ∧
      (degree net n).2 =
        ((net.links.filter (fun e => decide (e.1.1 = n))).map Prod.snd).sum := by
  rw [degree_eq]
  exact ⟨rfl, rfl⟩

/-- C8, the code at the failing input: for one resting inhibitory neuron without links and
thalamic input `[1]`, line 155 passes `0` to `input` (the accumulated current stays 0),
while the drive of the specification is `0.4`. -/
theorem step_inhibitory_gain_truncated :
    drive sampleModel sampleInhibitory.neurons sampleInhibitory.links [] [1] 0 = 0 ∧
      (step sampleModel sampleInhibitory [1]).2.neurons = [⟨-65, 0, 0, true⟩] ∧
      specDrive sampleModel sampleInhibitory [] [1] 0 = 4 / 10 := by
  decide!

/-- C9: for a thalamic input of length `size()`, `step` returns exactly the indices below
`size()` whose pre-tick neuron satisfies `firing()`; each stored neuron afterwards is the
pre-tick neuron with `reset()` applied once when it fired and not at all otherwise, and
then `input` applied; an empty network returns the empty set. -/
theorem step_firing_set (M : NeuronModel N) (net : Network N) (thalamic : List ℚ)
    (_hlen : thalamic.length = net.size) :
    (step M net thalamic).1 =
        (List.range net.size).filter (fun i => M.firing (net.neuron M i)) ∧
      (∀ i, i ∈ (step M net thalamic).1 ↔ i < net.size ∧ M.firing (net.neuron M i) = true) ∧
      (firingLoop M (List.range net.size) (net.neurons, [])).1 =
        net.neurons.map (fun x => if M.firing x then M.reset x else x) ∧
      (∀ i, i < net.size → ∃ d : ℚ, (step M net thalamic).2.neurons[i]? =
        some (M.input
          (if M.firing (net.neuron M i) then M.reset (net.neuron M i) else net.neuron M i)
          d)) ∧
      (net.size = 0 → (step M net thalamic).1 = []) := by
  refine ⟨step_fst M net thalamic, ?_, firingLoop_neurons M net.neurons, ?_, ?_⟩
  · intro i
    rw [step_fst, List.mem_filter, List.mem_range]
  · intro i hi
    exact ⟨_, step_neurons_getElem? M net thalamic i hi⟩
  · intro h0
    rw [step_fst, h0]
    rfl

/-- Witness of C9: one tick of `sampleNet` with thalamic input `[0,0,0]`. -/
theorem step_firing_set_witness :
    ([0, 0, 0] : List ℚ).length = sampleNet.size ∧
      ((step sampleModel sampleNet [0, 0, 0]).1 =
          (List.range sampleNet.size).filter
            (fun i => sampleModel.firing (sampleNet.neuron sampleModel i)) ∧
        (∀ i, i ∈ (step sampleModel sampleNet [0, 0, 0]).1 ↔
          i < sampleNet.size ∧ sampleModel.firing (sampleNet.neuron sampleModel i) = true) ∧
        (firingLoop sampleModel (List.range sampleNet.size) (sampleNet.neurons, [])).1 =
          sampleNet.neurons.map
            (fun x => if sampleModel.firing x then sampleModel.reset x else x) ∧
        (∀ i, i < sampleNet.size → ∃ d : ℚ,
          (step sampleModel sampleNet [0, 0, 0]).2.neurons[i]? =
            some (sampleModel.input
              (if sampleModel.firing (sampleNet.neuron sampleModel i)
                then sampleModel.reset (sampleNet.neuron sampleModel i)
                else sampleNet.neuron sampleModel i)
              d)) ∧
        (sampleNet.size = 0 → (step sampleModel sampleNet [0, 0, 0]).1 = [])) :=
  ⟨by decide!, step_firing_set sampleModel sampleNet [0, 0, 0] (by decide!)⟩

/-- C10, the code at the failing input: for one resting excitatory neuron and thalamic
input `[5]`, the neuron stored after `step` has only received its input (current 5,
potential still -65); `Neuron::step` applied to it would give potential -60. -/
theorem step_integrates_copies :
    (step sampleModel sampleExcitatory [5]).2.neurons = [⟨-65, 0, 5, false⟩] ∧
      sampleModel.step (sampleModel.input ⟨-65, 0, 0, false⟩ 5) = ⟨-60, 0, 0, false⟩ ∧
      (step sampleModel sampleExcitatory [5]).2.neurons ≠
        [sampleModel.step (sampleModel.input ⟨-65, 0, 0, false⟩ 5)] := by
  decide!

/-! ## The scenario of three neurons -/

/-- C11: in a network of three neurons none of which is inhibitory, built with
`add_link(0,1,2.0)` and `add_link(1,2,3.0)`, where neuron 1 is firing and neurons 0 and 2
are not, both calls succeed and store the weights 2 and 3, `step([0,0,0])` returns exactly
`{1}`, and it passes 1.0 to `input` of neuron 0 and 0 to `input` of neurons 1 and 2. -/
theorem scenario_three_neurons (M : NeuronModel N) (x0 x1 x2 : N)
    (hf0 : M.firing x0 = false) (hf1 : M.firing x1 = true) (hf2 : M.firing x2 = false)
    (_hi0 : M.is_inhibitory x0 = false) (hi1 : M.is_inhibitory x1 = false)
    (hi1r : M.is_inhibitory (M.reset x1) = false) (hi2 : M.is_inhibitory x2 = false) :
    (add_link M ⟨[x0, x1, x2], []⟩ 0 1 2).1 = true ∧
      (add_link M (add_link M ⟨[x0, x1, x2], []⟩ 0 1 2).2 1 2 3).1 = true ∧
      (add_link M (add_link M ⟨[x0, x1, x2], []⟩ 0 1 2).2 1 2 3).2 =
        ⟨[x0, x1, x2], [((0, 1), 2), ((1, 2), 3)]⟩ ∧
      (step M ⟨[x0, x1, x2], [((0, 1), 2), ((1, 2), 3)]⟩ [0, 0, 0]).1 = [1] ∧
      (step M ⟨[x0, x1, x2], [((0, 1), 2), ((1, 2), 3)]⟩ [0, 0, 0]).2.neurons =
        [M.input x0 1, M.input (M.reset x1) 0, M.input x2 0] := by
  have hr : List.range 3 = [0, 1, 2] := by decide
  have hm : ¬ ((2 : ℚ) < minStrength) := by norm_num [minStrength]
  have hm3 : ¬ ((3 : ℚ) < minStrength) := by norm_num [minStrength]
  have h1 : add_link M ⟨[x0, x1, x2], []⟩ 0 1 2 = (true, ⟨[x0, x1, x2], [((0, 1), 2)]⟩) := by
    simp [add_link, Network.size, Network.neuron, mapCount, mapInsert, hi1, hm]
  have h2 : add_link M ⟨[x0, x1, x2], [((0, 1), 2)]⟩ 1 2 3 =
      (true, ⟨[x0, x1, x2], [((0, 1), 2), ((1, 2), 3)]⟩) := by
    simp [add_link, Network.size, Network.neuron, mapCount, mapInsert, hi2, hm3, keyLt]
  refine ⟨by rw [h1], by rw [h1, h2], by rw [h1, h2], ?_, ?_⟩
  · simp [step_fst, Network.size, Network.neuron, hr, List.filter, hf0, hf1, hf2]
  · rw [step_neurons]
    simp [step_fst, Network.size, Network.neuron, hr, List.filter, hf0, hf1, hf2,
      firingLoop, inputLoop, modifyAt, setInsert, drive, neighbors, splitFiring, sumWeights,
      gainInt, hi1r]

/-- Witness of C11 on three sample neurons, the middle one above the firing threshold. -/
theorem scenario_three_neurons_witness :
    (sampleModel.firing ⟨-65, 0, 0, false⟩ = false ∧
        sampleModel.firing ⟨40, 0, 0, false⟩ = true ∧
        sampleModel.is_inhibitory ⟨-65, 0, 0, false⟩ = false ∧
        sampleModel.is_inhibitory ⟨40, 0, 0, false⟩ = false ∧
        sampleModel.is_inhibitory (sampleModel.reset ⟨40, 0, 0, false⟩) = false) ∧
      ((add_link sampleModel ⟨[⟨-65, 0, 0, false⟩, ⟨40, 0, 0, false⟩, ⟨-65, 0, 0, false⟩],
          []⟩ 0 1 2).1 = true ∧
        (add_link sampleModel
          (add_link sampleModel
            ⟨[⟨-65, 0, 0, false⟩, ⟨40, 0, 0, false⟩, ⟨-65, 0, 0, false⟩], []⟩ 0 1 2).2
          1 2 3).1 = true ∧
        (add_link sampleModel
          (add_link sampleModel
            ⟨[⟨-65, 0, 0, false⟩, ⟨40, 0, 0, false⟩, ⟨-65, 0, 0, false⟩], []⟩ 0 1 2).2
          1 2 3).2 =
          ⟨[⟨-65, 0, 0, false⟩, ⟨40, 0, 0, false⟩, ⟨-65, 0, 0, false⟩],
            [((0, 1), 2), ((1, 2), 3)]⟩ ∧
        (step sampleModel
          ⟨[⟨-65, 0, 0, false⟩, ⟨40, 0, 0, false⟩, ⟨-65, 0, 0, false⟩],
            [((0, 1), 2), ((1, 2), 3)]⟩ [0, 0, 0]).1 = [1] ∧
        (step sampleModel
          ⟨[⟨-65, 0, 0, false⟩, ⟨40, 0, 0, false⟩, ⟨-65, 0, 0, false⟩],
            [((0, 1), 2), ((1, 2), 3)]⟩ [0, 0, 0]).2.neurons =
          [sampleModel.input ⟨-65, 0, 0, false⟩ 1,
            sampleModel.input (sampleModel.reset ⟨40, 0, 0, false⟩) 0,
            sampleModel.input ⟨-65, 0, 0, false⟩ 0]) :=
  ⟨by decide!,
    scenario_three_neurons sampleModel ⟨-65, 0, 0, false⟩ ⟨40, 0, 0, false⟩
      ⟨-65, 0, 0, false⟩ (by decide!) (by decide!) (by decide!) (by decide!) (by decide!)
      (by decide!) (by decide!)⟩

/-! ## Effect of a successful `add_link` on `degree` and `neighbors` -/

theorem add_link_filter_perm (M : NeuronModel N) (net : Network N) (a b : Nat) (str : ℚ)
    (h : (add_link M net a b str).1 = true) (n : Nat) :
    ((add_link M net a b str).2.links.filter (fun e => decide (e.1.1 = n))).Perm
      ((((a, b), if M.is_inhibitory (net.neuron M b) then str * (-2) else str) ::
        net.links).filter (fun e => decide (e.1.1 = n))) :=
  (add_link_links_perm M net a b str h).filter _

theorem add_link_degree_self (M : NeuronModel N) (net : Network N) (a b : Nat) (str : ℚ)
    (h : (add_link M net a b str).1 = true) :
    degree (add_link M net a b str).2 a =
      ((degree net a).1 + 1,
        (degree net a).2 + if M.is_inhibitory (net.neuron M b) then str * (-2) else str) := by
  have hp := add_link_filter_perm M net a b str h a
  rw [List.filter_cons_of_pos (by simp)] at hp
  rw [degree_eq, degree_eq, hp.length_eq, (hp.map Prod.snd).sum_eq]
  simp [add_comm]

theorem add_link_degree_other (M : NeuronModel N) (net : Network N) (a b : Nat) (str : ℚ)
    (h : (add_link M net a b str).1 = true) (n : Nat) (hn : n ≠ a) :
    degree (add_link M net a b str).2 n = degree net n := by
  have hp := add_link_filter_perm M net a b str h n
  rw [List.filter_cons_of_neg (by simpa using fun h' => hn h'.symm)] at hp
  rw [degree_eq, degree_eq, hp.length_eq, (hp.map Prod.snd).sum_eq]

theorem add_link_neighbors_count (M : NeuronModel N) (net : Network N) (a b : Nat) (str : ℚ)
    (h : (add_link M net a b str).1 = true) :
    (neighbors (add_link M net a b str).2 a).count
      (b, if M.is_inhibitory (net.neuron M b) then str * (-2) else str) = 1 := by
  have hp := add_link_filter_perm M net a b str h a
  rw [List.filter_cons_of_pos (by simp)] at hp
  have hnew := ((add_link_fst M net a b str).mp h).2.2.2.2
  rw [neighbors_eq, List.count, (hp.map (fun e : Link => (e.1.2, e.2))).countP_eq,
    List.map_cons, List.countP_cons_of_pos _ _ (by simp)]
  have hzero : List.countP
      (fun x => x == (b, if M.is_inhibitory (net.neuron M b) then str * (-2) else str))
      ((net.links.filter (fun e => decide (e.1.1 = a))).map (fun e => (e.1.2, e.2))) = 0 := by
    rw [List.countP_eq_zero]
    intro x hmem hx
    have hx1 : x = (b, if M.is_inhibitory (net.neuron M b) then str * (-2) else str) := by
      simpa using hx
    obtain ⟨e, he, heq⟩ := List.mem_map.mp hmem
    have he1 := List.mem_filter.mp he
    have ha : e.1.1 = a := by simpa using he1.2
    have hb : e.1.2 = b := (Prod.mk.inj (heq.trans hx1)).1
    apply hnew e.2
    have : ((a, b), e.2) = e := by
      rw [← ha, ← hb]
    rw [this]
    exact he1.1
  rw [hzero]

/-! ## `random_connect`: count, provenance of the links, cleared start -/

theorem add_link_links_length (M : NeuronModel N) (net : Network N) (a b : Nat) (str : ℚ) :
    (add_link M net a b str).2.links.length =
      net.links.length + if (add_link M net a b str).1 then 1 else 0 := by
  cases h : (add_link M net a b str).1
  · rw [add_link_of_false M net a b str h]
    simp
  · rw [(add_link_links_perm M net a b str h).length_eq]
    simp

theorem scanLoop_count (M : NeuronModel N) (node : Nat) (deg : Int) (nodeidx : Nat → Nat)
    (strength : Nat → ℚ) :
    ∀ (fuel nn nl : Nat) (net : Network N),
      (scanLoop M node deg nodeidx strength fuel nn nl net).2.links.length + nl =
        net.links.length + (scanLoop M node deg nodeidx strength fuel nn nl net).1
  | 0, _, _, _ => rfl
  | fuel + 1, nn, nl, net => by
    unfold scanLoop
    split
    · have ih := scanLoop_count M node deg nodeidx strength fuel (nn + 1)
        (if (add_link M net node (nodeidx nn) (strength nl)).1 then nl + 1 else nl)
        (add_link M net node (nodeidx nn) (strength nl)).2
      have hl := add_link_links_length M net node (nodeidx nn) (strength nl)
      simp only []
      cases h : (add_link M net node (nodeidx nn) (strength nl)).1
      · simp only [h, Bool.false_eq_true, if_false, add_zero] at ih hl ⊢
        omega
      · simp only [h, if_true] at ih hl ⊢
        omega
    · rfl

theorem connectLoop_count (M : NeuronModel N) (degrees : Nat → Int)
    (shuffles : Nat → Nat → Nat) (strengths : Nat → Nat → ℚ) :
    ∀ (nodes : List Nat) (st : Nat × Network N),
      (connectLoop M degrees shuffles strengths nodes st).2.links.length + st.1 =
        st.2.links.length + (connectLoop M degrees shuffles strengths nodes st).1
  | [], _ => by simp [connectLoop, add_comm]
  | node :: rest, (num, net) => by
    unfold connectLoop
    have ih := connectLoop_count M degrees shuffles strengths rest
      (num + (scanLoop M node (degrees node) (shuffles node) (strengths node)
          net.size 0 0 net).1,
        (scanLoop M node (degrees node) (shuffles node) (strengths node) net.size 0 0 net).2)
    have hs := scanLoop_count M node (degrees node) (shuffles node) (strengths node)
      net.size 0 0 net
    simp only [] at ih hs ⊢
    omega

theorem random_connect_count (M : NeuronModel N) (net : Network N) (degrees : Nat → Int)
    (shuffles : Nat → Nat → Nat) (strengths : Nat → Nat → ℚ) :
    (random_connect M net degrees shuffles strengths).1 =
      (random_connect M net degrees shuffles strengths).2.links.length := by
  unfold random_connect
  have h := connectLoop_count M degrees shuffles strengths
    (List.range (Network.size (⟨net.neurons, []⟩ : Network N)))
    (0, (⟨net.neurons, []⟩ : Network N))
  simp only [List.length_nil, add_zero, zero_add] at h
  exact h.symm

theorem scanLoop_induct_calls (M : NeuronModel N) (P : Network N → Prop)
    (node : Nat) (deg : Int) (nodeidx : Nat → Nat) (strength : Nat → ℚ)
    (hP : ∀ (net : Network N) (nn nl : Nat), nn < net.size → (nl : Int) < deg → P net →
      P (add_link M net node (nodeidx nn) (strength nl)).2) :
    ∀ (fuel nn nl : Nat) (net : Network N), nn + fuel ≤ net.size → P net →
      P (scanLoop M node deg nodeidx strength fuel nn nl net).2
  | 0, _, _, _, _, h => h
  | fuel + 1, nn, nl, net, hb, h => by
    unfold scanLoop
    split
    · rename_i hlt
      refine scanLoop_induct_calls M P node deg nodeidx strength hP fuel _ _ _ ?_
        (hP net nn nl (by omega) hlt h)
      rw [add_link_size]
      omega
    · exact h

theorem scanLoop_size (M : NeuronModel N) (node : Nat) (deg : Int) (nodeidx : Nat → Nat)
    (strength : Nat → ℚ) (fuel nn nl : Nat) (net : Network N) :
    (scanLoop M node deg nodeidx strength fuel nn nl net).2.size = net.size :=
  scanLoop_induct M (fun x => x.size = net.size)
    (fun x a b s h => (add_link_size M x a b s).trans h) node deg nodeidx strength fuel nn nl
    net rfl

theorem connectLoop_induct_calls (M : NeuronModel N) (P : Network N → Prop)
    (degrees : Nat → Int) (shuffles : Nat → Nat → Nat) (strengths : Nat → Nat → ℚ) :
    ∀ (nodes : List Nat) (st : Nat × Network N),
      (∀ (node : Nat) (net : Network N) (nn nl : Nat), node ∈ nodes → nn < net.size →
        (nl : Int) < degrees node → P net →
        P (add_link M net node (shuffles node nn) (strengths node nl)).2) →
      P st.2 → P (connectLoop M degrees shuffles strengths nodes st).2
  | [], _, _, h => h
  | node :: rest, (num, net), hP, h => by
    unfold connectLoop
    refine connectLoop_induct_calls M P degrees shuffles strengths rest _
      (fun nd x nn nl hnd => hP nd x nn nl (List.mem_cons_of_mem _ hnd)) ?_
    exact scanLoop_induct_calls M P node (degrees node) (shuffles node) (strengths node)
      (fun x nn nl => hP node x nn nl (List.mem_cons_self _ _)) net.size 0 0 net
      (by omega) h

/-- Every link stored after `random_connect` was inserted by one of the `add_link` calls of
lines 58-59: for some `node`, candidate position `nn` and strength index `nl` below the
sampled degree, it is the entry that call stores. -/
theorem random_connect_provenance (M : NeuronModel N) (net : Network N)
    (degrees : Nat → Int) (shuffles : Nat → Nat → Nat) (strengths : Nat → Nat → ℚ) :
    ∀ e ∈ (random_connect M net degrees shuffles strengths).2.links,
      ∃ node nn nl : Nat, node < net.size ∧ nn < net.size ∧ (nl : Int) < degrees node ∧
        shuffles node nn < net.size ∧ node ≠ shuffles node nn ∧
        minStrength ≤ strengths node nl ∧
        e = ((node, shuffles node nn),
          if M.is_inhibitory (net.neuron M (shuffles node nn)) then strengths node nl * (-2)
          else strengths node nl) := by
  have key := connectLoop_induct_calls M
    (fun x => x.neurons = net.neurons ∧ ∀ e ∈ x.links,
      ∃ node nn nl : Nat, node < net.size ∧ nn < net.size ∧ (nl : Int) < degrees node ∧
        shuffles node nn < net.size ∧ node ≠ shuffles node nn ∧
        minStrength ≤ strengths node nl ∧
        e = ((node, shuffles node nn),
          if M.is_inhibitory (net.neuron M (shuffles node nn)) then strengths node nl * (-2)
          else strengths node nl))
    degrees shuffles strengths (List.range net.size) (0, ⟨net.neurons, []⟩) ?_
    ⟨rfl, by intro e he; simp at he⟩
  · exact key.2
  · intro node x nn nl hnode hnn hnl hx
    obtain ⟨hxn, hxl⟩ := hx
    have hsz : x.size = net.size := by simp [Network.size, hxn]
    refine ⟨(add_link_neurons M x _ _ _).trans hxn, ?_⟩
    cases h : (add_link M x node (shuffles node nn) (strengths node nl)).1
    · rw [add_link_of_false M x _ _ _ h]
      exact hxl
    · intro e he
      rcases List.mem_cons.mp ((add_link_links_perm M x _ _ _ h).mem_iff.mp he) with heq | hold
      · obtain ⟨hne, -, hb, hs, -⟩ := (add_link_fst M x _ _ _).mp h
        refine ⟨node, nn, nl, List.mem_range.mp hnode, hsz ▸ hnn, hnl, hsz ▸ hb, hne, hs, ?_⟩
        rw [heq]
        simp [Network.neuron, hxn]
      · exact hxl e hold

theorem scanLoop_of_not_lt (M : NeuronModel N) (node : Nat) (deg : Int)
    (nodeidx : Nat → Nat) (strength : Nat → ℚ) (fuel nn nl : Nat) (net : Network N)
    (h : ¬ (nl : Int) < deg) :
    scanLoop M node deg nodeidx strength fuel nn nl net = (nl, net) := by
  cases fuel with
  | zero => rfl
  | succ fuel =>
    unfold scanLoop
    simp [h]

theorem connectLoop_of_nonpos (M : NeuronModel N) (degrees : Nat → Int)
    (shuffles : Nat → Nat → Nat) (strengths : Nat → Nat → ℚ) :
    ∀ (nodes : List Nat) (st : Nat × Network N), (∀ node ∈ nodes, degrees node ≤ 0) →
      connectLoop M degrees shuffles strengths nodes st = st
  | [], _, _ => rfl
  | node :: rest, (num, net), h => by
    unfold connectLoop
    have h0 : ¬ ((0 : Nat) : Int) < degrees node := by
      have := h node (List.mem_cons_self _ _)
      omega
    rw [scanLoop_of_not_lt M node _ _ _ _ 0 0 net h0]
    exact connectLoop_of_nonpos M degrees shuffles strengths rest _
      (fun nd hnd => h nd (List.mem_cons_of_mem _ hnd))

theorem random_connect_of_nonpos (M : NeuronModel N) (net : Network N)
    (degrees : Nat → Int) (shuffles : Nat → Nat → Nat) (strengths : Nat → Nat → ℚ)
    (h : ∀ node, node < net.size → degrees node ≤ 0) :
    random_connect M net degrees shuffles strengths = (0, ⟨net.neurons, []⟩) := by
  unfold random_connect
  exact connectLoop_of_nonpos M degrees shuffles strengths _ _
    (fun nd hnd => h nd (List.mem_range.mp hnd))

/-! ## `set_default_params` and `resize`, slot by slot -/

theorem getElem?_fillRun (M : NeuronModel N) (ty : String) (noise : Nat → ℚ) (start : Nat) :
    ∀ (cnt k : Nat) (ns : List N) (j : Nat),
      (fillRun M ty noise start cnt k ns)[j]? =
        if start + k ≤ j ∧ j < start + k + cnt then
          ns[j]?.map (fun x => M.set_default_params x ty (noise (j - start)))
        else ns[j]?
  | 0, k, ns, j => by
    have : ¬ (start + k ≤ j ∧ j < start + k + 0) := by omega
    simp only [fillRun, this, if_false]
  | cnt + 1, k, ns, j => by
    unfold fillRun
    rw [getElem?_fillRun M ty noise start cnt (k + 1), getElem?_modifyAt]
    by_cases hj : j = start + k
    · have h1 : ¬ (start + (k + 1) ≤ j ∧ j < start + (k + 1) + cnt) := by omega
      have h2 : start + k ≤ j ∧ j < start + k + (cnt + 1) := by omega
      have h3 : j - start = k := by omega
      rw [if_neg h1, if_pos hj, if_pos h2, h3]
    · by_cases hin : start + (k + 1) ≤ j ∧ j < start + (k + 1) + cnt
      · have h2 : start + k ≤ j ∧ j < start + k + (cnt + 1) := by omega
        rw [if_pos hin, if_neg hj, if_pos h2]
      · have h2 : ¬ (start + k ≤ j ∧ j < start + k + (cnt + 1)) := by omega
        rw [if_neg hin, if_neg hj, if_neg h2]

theorem specSlotType_of_ge (M : NeuronModel N) :
    ∀ (types : List (String × Nat)) (k : Nat), knownTotal M types ≤ k →
      specSlotType M types k = "RS"
  | [], _, _ => rfl
  | (ty, cnt) :: rest, k, h => by
    unfold knownTotal at h
    unfold specSlotType
    by_cases hty : M.type_exists ty = true
    · simp only [hty, if_true] at h ⊢
      have h1 : ¬ k < cnt := by omega
      simp only [h1, if_false]
      exact specSlotType_of_ge M rest (k - cnt) (by omega)
    · simp only [hty, if_false] at h ⊢
      exact specSlotType_of_ge M rest k (by omega)

theorem specSlotType_known (M : NeuronModel N) (hRS : M.type_exists "RS" = true) :
    ∀ (types : List (String × Nat)) (k : Nat), M.type_exists (specSlotType M types k) = true
  | [], _ => hRS
  | (ty, cnt) :: rest, k => by
    unfold specSlotType
    by_cases hty : M.type_exists ty = true
    · simp only [hty, if_true]
      split
      · exact hty
      · exact specSlotType_known M hRS rest _
    · simp only [hty, if_false]
      exact specSlotType_known M hRS rest _

/-- The loop over the type map, when the `size_t` sum `kmax` does not wrap: the slots from
`k` up to `min(kmax + total, ssize)` receive the types of `specSlotType`. -/
theorem typeLoop_spec (M : NeuronModel N) (noise : Nat → ℚ) (start ssize : Nat) :
    ∀ (types : List (String × Nat)) (k kmax : Nat) (ns : List N),
      kmax + knownTotal M types < sizeMod → k = min kmax ssize →
      (typeLoop M noise start ssize types (k, kmax, ns)).1 =
          min (kmax + knownTotal M types) ssize ∧
        ∀ j, (typeLoop M noise start ssize types (k, kmax, ns)).2.2[j]? =
          if start + k ≤ j ∧ j < start + min (kmax + knownTotal M types) ssize then
            ns[j]?.map (fun x =>
              M.set_default_params x (specSlotType M types (j - start - kmax))
                (noise (j - start)))
          else ns[j]?
  | [], k, kmax, ns, _, hk => by
    refine ⟨by simp [typeLoop, knownTotal, hk], ?_⟩
    intro j
    have : ¬ (start + k ≤ j ∧ j < start + min (kmax + knownTotal M []) ssize) := by
      simp only [knownTotal, add_zero]
      omega
    simp only [typeLoop, this, if_false]
  | (ty, cnt) :: rest, k, kmax, ns, hno, hk => by
    unfold typeLoop
    by_cases hty : M.type_exists ty = true
    · have htot : knownTotal M ((ty, cnt) :: rest) = cnt + knownTotal M rest := by
        simp [knownTotal, hty]
      rw [htot] at hno ⊢
      have hmod : (kmax + cnt) % sizeMod = kmax + cnt := Nat.mod_eq_of_lt (by omega)
      simp only [hty, if_true, hmod]
      have hmax : max k (min (kmax + cnt) ssize) = min (kmax + cnt) ssize := by
        omega
      rw [hmax]
      obtain ⟨ih1, ih2⟩ := typeLoop_spec M noise start ssize rest
        (min (kmax + cnt) ssize) (kmax + cnt)
        (fillRun M ty noise start (min (kmax + cnt) ssize - k) k ns) (by omega) rfl
      refine ⟨by rw [ih1, ← add_assoc], ?_⟩
      intro j
      rw [ih2 j, getElem?_fillRun, ← add_assoc]
      by_cases hA : start + min (kmax + cnt) ssize ≤ j ∧
          j < start + min (kmax + cnt + knownTotal M rest) ssize
      · have hB : ¬ (start + k ≤ j ∧ j < start + k + (min (kmax + cnt) ssize - k)) := by
          omega
        have hC : start + k ≤ j ∧ j < start + min (kmax + cnt + knownTotal M rest) ssize := by
          omega
        have hD : ¬ (j - start - kmax < cnt) := by omega
        have hE : j - start - kmax - cnt = j - start - (kmax + cnt) := by omega
        have hS : specSlotType M ((ty, cnt) :: rest) (j - start - kmax) =
            specSlotType M rest (j - start - (kmax + cnt)) := by
          rw [specSlotType, if_pos hty, if_neg hD, hE]
        rw [if_pos hA, if_neg hB, if_pos hC, hS]
      · by_cases hB : start + k ≤ j ∧ j < start + k + (min (kmax + cnt) ssize - k)
        · have hC : start + k ≤ j ∧
              j < start + min (kmax + cnt + knownTotal M rest) ssize := by
            omega
          have hD : j - start - kmax < cnt := by omega
          have hS : specSlotType M ((ty, cnt) :: rest) (j - start - kmax) = ty := by
            rw [specSlotType, if_pos hty, if_pos hD]
          rw [if_neg hA, if_pos hB, if_pos hC, hS]
        · have hC : ¬ (start + k ≤ j ∧
              j < start + min (kmax + cnt + knownTotal M rest) ssize) := by
            omega
          rw [if_neg hA, if_neg hB, if_neg hC]
    · have htot : knownTotal M ((ty, cnt) :: rest) = knownTotal M rest := by
        simp [knownTotal, hty]
      rw [htot] at hno ⊢
      rw [if_neg hty]
      obtain ⟨ih1, ih2⟩ := typeLoop_spec M noise start ssize rest k kmax ns hno hk
      refine ⟨ih1, ?_⟩
      intro j
      have hS : ∀ p, specSlotType M ((ty, cnt) :: rest) p = specSlotType M rest p := by
        intro p
        rw [specSlotType, if_neg hty]
      rw [ih2 j]
      simp only [hS]

/-- The function `set_default_params`, when the counts of the known types sum to less than
`2^64`: slot `start + k` receives the type of `specSlotType` with jitter `noise k`, the
neurons below `start` are kept. -/
theorem set_default_params_spec (M : NeuronModel N) (net : Network N)
    (types : List (String × Nat)) (start : Nat) (noise : Nat → ℚ)
    (hstart : start ≤ net.size) (hno : knownTotal M types < sizeMod) (j : Nat) :
    (set_default_params M net types start noise).neurons[j]? =
      if start ≤ j then
        net.neurons[j]?.map (fun x =>
          M.set_default_params x (specSlotType M types (j - start)) (noise (j - start)))
      else net.neurons[j]? := by
  unfold set_default_params
  obtain ⟨h1, h2⟩ := typeLoop_spec M noise start (net.size - start) types 0 0 net.neurons
    (by omega) (by omega)
  simp only [zero_add, Nat.sub_zero, add_zero] at h1 h2
  simp only []
  rw [getElem?_fillRun, h1, h2 j]
  by_cases hlt : j < net.size
  · by_cases hA : start + min (knownTotal M types) (net.size - start) ≤ j ∧
        j < start + min (knownTotal M types) (net.size - start) +
          (net.size - start - min (knownTotal M types) (net.size - start))
    · have hB : ¬ (start ≤ j ∧ j < start + min (knownTotal M types) (net.size - start)) := by
        omega
      have hC : start ≤ j := by omega
      have hD : specSlotType M types (j - start) = "RS" :=
        specSlotType_of_ge M types _ (by omega)
      rw [if_pos hA, if_neg hB, if_pos hC, hD]
    · by_cases hC : start ≤ j
      · have hB : start ≤ j ∧ j < start + min (knownTotal M types) (net.size - start) := by
          omega
        rw [if_neg hA, if_pos hB, if_pos hC]
      · have hB : ¬ (start ≤ j ∧
            j < start + min (knownTotal M types) (net.size - start)) := by
          omega
        rw [if_neg hA, if_neg hB, if_neg hC]
  · have hnone : net.neurons[j]? = none :=
      List.getElem?_eq_none (Nat.le_of_not_lt hlt)
    simp [hnone]

theorem construct_of_ne_zero (L : StdRandom G) (s rd : Nat) (h : s ≠ 0) :
    RandomNumbers.construct L s rd = ⟨s, L.mt19937 s⟩ := by
  unfold RandomNumbers.construct
  simp only [h, if_false]

/-! ## Claims on `random_connect`, `resize`, `set_default_params` and the random source -/

/-- C12: for every network, whatever links it holds before, and every output of the random
source (Poisson degrees, shuffles, uniform strengths), the integer `random_connect` returns
is the number of entries of the link map after the call. -/
theorem random_connect_returns_link_count (M : NeuronModel N) (net : Network N)
    (degrees : Nat → Int) (shuffles : Nat → Nat → Nat) (strengths : Nat → Nat → ℚ) :
    (random_connect M net degrees shuffles strengths).1 =
      (random_connect M net degrees shuffles strengths).2.links.length :=
  random_connect_count M net degrees shuffles strengths

/-- C13: when every uniform draw the call uses lies in `[1e-6, 2*mean_strength)`, every link
stored after `random_connect` has a magnitude before sign adjustment in
`(0, 2*mean_strength]`: its weight `w` satisfies `0 < w <= 2*mean_strength` when its target
is not inhibitory and `0 < w / -2.0 <= 2*mean_strength` when it is. -/
theorem random_connect_strength_bounds (M : NeuronModel N) (net : Network N)
    (degrees : Nat → Int) (shuffles : Nat → Nat → Nat) (strengths : Nat → Nat → ℚ)
    (mean_streng : ℚ)
    (hdraw : ∀ node nl : Nat, node < net.size → (nl : Int) < degrees node →
      minStrength ≤ strengths node nl ∧ strengths node nl < 2 * mean_streng) :
    ∀ e ∈ (random_connect M net degrees shuffles strengths).2.links,
      if M.is_inhibitory ((random_connect M net degrees shuffles strengths).2.neuron M e.1.2)
      then 0 < e.2 / (-2) ∧ e.2 / (-2) ≤ 2 * mean_streng
      else 0 < e.2 ∧ e.2 ≤ 2 * mean_streng := by
  intro e he
  obtain ⟨node, nn, nl, hnode, -, hnl, -, -, -, heq⟩ :=
    random_connect_provenance M net degrees shuffles strengths e he
  obtain ⟨hlo, hhi⟩ := hdraw node nl hnode hnl
  have hpos : (0 : ℚ) < strengths node nl :=
    lt_of_lt_of_le (by norm_num [minStrength]) hlo
  have hneu : (random_connect M net degrees shuffles strengths).2.neuron M e.1.2 =
      net.neuron M (shuffles node nn) := by
    simp only [Network.neuron, random_connect_neurons, heq]
  rw [hneu, heq]
  by_cases hinh : M.is_inhibitory (net.neuron M (shuffles node nn)) = true
  · simp only [hinh, if_true]
    have hdiv : strengths node nl * (-2) / (-2) = strengths node nl := by
      field_simp
    rw [hdiv]
    exact ⟨hpos, le_of_lt hhi⟩
  · simp only [hinh, if_false]
    exact ⟨hpos, le_of_lt hhi⟩

/-- Witness of C13: `random_connect` on `sampleNet` with degree 2 for every neuron and all
strengths 1, for `mean_strength = 1`. -/
theorem random_connect_strength_bounds_witness :
    (∀ node nl : Nat, node < sampleNet.size → (nl : Int) < (fun _ => (2 : Int)) node →
        minStrength ≤ (fun _ _ => (1 : ℚ)) node nl ∧
          (fun _ _ => (1 : ℚ)) node nl < 2 * (1 : ℚ)) ∧
      ∀ e ∈ (random_connect sampleModel sampleNet (fun _ => 2)
          (fun node nn => (node + nn) % 3) (fun _ _ => 1)).2.links,
        if sampleModel.is_inhibitory
          ((random_connect sampleModel sampleNet (fun _ => 2)
            (fun node nn => (node + nn) % 3) (fun _ _ => 1)).2.neuron sampleModel e.1.2)
        then 0 < e.2 / (-2) ∧ e.2 / (-2) ≤ 2 * (1 : ℚ)
        else 0 < e.2 ∧ e.2 ≤ 2 * (1 : ℚ) :=
  ⟨fun _ _ _ _ => by norm_num [minStrength],
    random_connect_strength_bounds sampleModel sampleNet (fun _ => 2)
      (fun node nn => (node + nn) % 3) (fun _ _ => 1) 1
      (fun _ _ _ _ => by norm_num [minStrength])⟩

/-- C15, counterexample: with the known types `FS` (count 1) and `LTS` (count `2^64 - 1`)
on three slots, the `size_t` sum `kmax` wraps to 0 at `LTS`, which then takes no slot: the
code gives `FS, RS, RS`, while the run of `LTS` should cover the two remaining slots. -/
theorem set_default_params_wrap_counterexample :
    typedModel.type_exists "LTS" = true ∧
      (set_default_params typedModel typedNet wrappingTypes 0 (fun _ => 0)).neurons =
        [⟨"FS", 0⟩, ⟨"RS", 0⟩, ⟨"RS", 0⟩] ∧
      (List.range 3).map (specSlotType typedModel wrappingTypes) = ["FS", "LTS", "LTS"] := by
  decide!

/-- C15, amended: for `start <= size()` and a type map whose known counts sum to less than
`2^64`, with `RS` a known type, `set_default_params` returns a network of the same size and
links with the neurons below `start` unchanged, and gives slot `start + k` the jitter
`noise[k]` and the type of `specSlotType`: the known types take consecutive runs of their
counts in key order, cut at the last slot, an unknown type takes no slot, the slots left
get `RS`; the type given is always a known one. -/
theorem set_default_params_assignment (M : NeuronModel N) (net : Network N)
    (types : List (String × Nat)) (start : Nat) (noise : Nat → ℚ)
    (hstart : start ≤ net.size) (hRS : M.type_exists "RS" = true)
    (hno : knownTotal M types < sizeMod) :
    (set_default_params M net types start noise).size = net.size ∧
      (set_default_params M net types start noise).links = net.links ∧
      (∀ j, j < start →
        (set_default_params M net types start noise).neurons[j]? = net.neurons[j]?) ∧
      ∀ k, k < net.size - start →
        (set_default_params M net types start noise).neurons[start + k]? =
            net.neurons[start + k]?.map (fun x =>
              M.set_default_params x (specSlotType M types k) (noise k)) ∧
          M.type_exists (specSlotType M types k) = true := by
  refine ⟨set_default_params_size M net types start noise, rfl, ?_, ?_⟩
  · intro j hj
    rw [set_default_params_spec M net types start noise hstart hno j, if_neg (by omega)]
  · intro k _
    refine ⟨?_, specSlotType_known M hRS types k⟩
    rw [set_default_params_spec M net types start noise hstart hno (start + k),
      if_pos (by omega)]
    have : start + k - start = k := by omega
    rw [this]

/-- Witness of C15 (amended): a type map with an unknown name between two known ones. -/
theorem set_default_params_assignment_witness :
    (0 ≤ typedNet.size ∧ typedModel.type_exists "RS" = true ∧
        knownTotal typedModel mixedTypes < sizeMod) ∧
      ((set_default_params typedModel typedNet mixedTypes 0 (fun k => (k : ℚ))).size =
          typedNet.size ∧
        (set_default_params typedModel typedNet mixedTypes 0 (fun k => (k : ℚ))).links =
          typedNet.links ∧
        (∀ j, j < 0 →
          (set_default_params typedModel typedNet mixedTypes 0 (fun k => (k : ℚ))).neurons[j]? =
            typedNet.neurons[j]?) ∧
        ∀ k, k < typedNet.size - 0 →
          (set_default_params typedModel typedNet mixedTypes 0
              (fun k => (k : ℚ))).neurons[0 + k]? =
              typedNet.neurons[0 + k]?.map (fun x =>
                typedModel.set_default_params x (specSlotType typedModel mixedTypes k)
                  ((fun k => (k : ℚ)) k)) ∧
            typedModel.type_exists (specSlotType typedModel mixedTypes k) = true) :=
  ⟨⟨by decide!, by decide!, by decide!⟩,
    set_default_params_assignment typedModel typedNet mixedTypes 0 (fun k => (k : ℚ))
      (by decide!) (by decide!) (by decide!)⟩

/-- C16: for a nonzero seed `s` the constructor stores `seed = s` and builds the engine from
`s` alone, whatever the entropy source would give; so two instances constructed with the
same nonzero seed are equal and give the same outputs on the same sequence of draw calls
(`uniform_double`, `normal`, `poisson`, scalar or vector form). -/
theorem seed_determinism (L : StdRandom G) (s rd1 rd2 : Nat) (draws : List Draw)
    (hs : s ≠ 0) :
    (RandomNumbers.construct L s rd1).seed = s ∧
      (RandomNumbers.construct L s rd1).rng = L.mt19937 s ∧
      RandomNumbers.construct L s rd1 = RandomNumbers.construct L s rd2 ∧
      (RandomNumbers.drawAll L (RandomNumbers.construct L s rd1) draws).1 =
        (RandomNumbers.drawAll L (RandomNumbers.construct L s rd2) draws).1 := by
  rw [construct_of_ne_zero L s rd1 hs, construct_of_ne_zero L s rd2 hs]
  exact ⟨rfl, rfl, rfl, rfl⟩

/-- Witness of C16: seed 42, two different entropy values, a sequence of every kind of
draw. -/
theorem seed_determinism_witness :
    (42 : Nat) ≠ 0 ∧
      ((RandomNumbers.construct sampleStd 42 7).seed = 42 ∧
        (RandomNumbers.construct sampleStd 42 7).rng = sampleStd.mt19937 42 ∧
        RandomNumbers.construct sampleStd 42 7 = RandomNumbers.construct sampleStd 42 9 ∧
        (RandomNumbers.drawAll sampleStd (RandomNumbers.construct sampleStd 42 7)
            sampleDraws).1 =
          (RandomNumbers.drawAll sampleStd (RandomNumbers.construct sampleStd 42 9)
            sampleDraws).1) :=
  ⟨by decide, seed_determinism sampleStd 42 7 9 sampleDraws (by decide)⟩

/-- C17: `random_connect` starts from an empty link map: its result is the one it gives on
the same neurons without any link, every link stored afterwards is the entry one of the
`add_link` calls of this call inserted, and when every sampled out-degree is 0 the link map
after the call is empty and the call returns 0. -/
theorem random_connect_clears_first (M : NeuronModel N) (net : Network N)
    (degrees : Nat → Int) (shuffles : Nat → Nat → Nat) (strengths : Nat → Nat → ℚ) :
    random_connect M net degrees shuffles strengths =
        random_connect M ⟨net.neurons, []⟩ degrees shuffles strengths ∧
      (∀ e ∈ (random_connect M net degrees shuffles strengths).2.links,
        ∃ node nn nl : Nat, node < net.size ∧ nn < net.size ∧ (nl : Int) < degrees node ∧
          shuffles node nn < net.size ∧ node ≠ shuffles node nn ∧
          minStrength ≤ strengths node nl ∧
          e = ((node, shuffles node nn),
            if M.is_inhibitory (net.neuron M (shuffles node nn))
              then strengths node nl * (-2) else strengths node nl)) ∧
      ((∀ node, node < net.size → degrees node = 0) →
        random_connect M net degrees shuffles strengths = (0, ⟨net.neurons, []⟩)) :=
  ⟨rfl, random_connect_provenance M net degrees shuffles strengths,
    fun h => random_connect_of_nonpos M net degrees shuffles strengths
      (fun node hnode => le_of_eq (h node hnode))⟩

/-- Witness of C17: all sampled degrees 0 on `sampleNet`, which holds two links before. -/
theorem random_connect_clears_first_witness :
    (∀ node, node < sampleNet.size → (fun _ => (0 : Int)) node = 0) ∧
      random_connect sampleModel sampleNet (fun _ => 0) (fun node nn => (node + nn) % 3)
          (fun _ _ => 1) = (0, ⟨sampleNet.neurons, []⟩) :=
  ⟨fun _ _ => rfl,
    (random_connect_clears_first sampleModel sampleNet (fun _ => 0)
      (fun node nn => (node + nn) % 3) (fun _ _ => 1)).2.2 (fun _ _ => rfl)⟩

/-! ## Key order of the link map -/

theorem keyLt_iff (p q : LinkKey) :
    keyLt p q = true ↔ p.1 < q.1 ∨ (p.1 = q.1 ∧ p.2 < q.2) := by
  simp [keyLt]

theorem mem_mapInsert : ∀ (links : List Link) (k : LinkKey) (v : ℚ) (y : Link),
    y ∈ mapInsert links k v → y = (k, v) ∨ y ∈ links
  | [], k, v, y, h => by
    left
    simpa [mapInsert] using h
  | e :: es, k, v, y, h => by
    unfold mapInsert at h
    split at h
    · rcases List.mem_cons.mp h with h1 | h1
      · exact Or.inl h1
      · exact Or.inr h1
    · split at h
      · exact Or.inr h
      · rcases List.mem_cons.mp h with h1 | h1
        · exact Or.inr (h1 ▸ List.mem_cons_self _ _)
        · rcases mem_mapInsert es k v y h1 with h2 | h2
          · exact Or.inl h2
          · exact Or.inr (List.mem_cons_of_mem _ h2)

theorem mapInsert_sorted : ∀ (links : List Link) (k : LinkKey) (v : ℚ),
    links.Pairwise (fun e1 e2 => keyLt e1.1 e2.1 = true) →
      (mapInsert links k v).Pairwise (fun e1 e2 => keyLt e1.1 e2.1 = true)
  | [], k, v, _ => by simp [mapInsert]
  | e :: es, k, v, h => by
    obtain ⟨hhead, htail⟩ := List.pairwise_cons.mp h
    unfold mapInsert
    split
    · rename_i hlt
      refine List.pairwise_cons.mpr ⟨?_, h⟩
      intro y hy
      rcases List.mem_cons.mp hy with h1 | h1
      · rw [h1]
        exact hlt
      · have h2 := hhead y h1
        rw [keyLt_iff] at hlt h2 ⊢
        simp only [] at hlt h2 ⊢
        omega
    · rename_i hnlt
      split
      · exact h
      · rename_i hne
        refine List.pairwise_cons.mpr ⟨?_, mapInsert_sorted es k v htail⟩
        intro y hy
        rcases mem_mapInsert es k v y hy with h1 | h1
        · rw [h1]
          have hne1 : e.1.1 ≠ k.1 ∨ e.1.2 ≠ k.2 := by
            by_contra hcon
            push_neg at hcon
            exact hne (Prod.ext hcon.1 hcon.2)
          rw [keyLt_iff] at hnlt ⊢
          simp only [] at hnlt ⊢
          omega
        · exact hhead y h1

theorem add_link_linksSorted (M : NeuronModel N) (net : Network N) (a b : Nat) (str : ℚ)
    (hinv : linksSorted net) : linksSorted (add_link M net a b str).2 := by
  cases h : (add_link M net a b str).1
  · rw [add_link_of_false M net a b str h]
    exact hinv
  · rw [add_link_of_true M net a b str h]
    exact mapInsert_sorted _ _ _ hinv

theorem applyOp_linksSorted (M : NeuronModel N) (net : Network N) (op : Op)
    (hinv : linksSorted net) : linksSorted (applyOp M net op) := by
  cases op with
  | resize n inhib noise =>
    simp only [applyOp, linksSorted, resize_links]
    exact hinv
  | add_link a b str => exact add_link_linksSorted M net a b str hinv
  | random_connect degrees shuffles strengths =>
    exact random_connect_induct M linksSorted (add_link_linksSorted M) net
      List.Pairwise.nil degrees shuffles strengths
  | step thalamic => exact hinv

theorem runOps_linksSorted (M : NeuronModel N) :
    ∀ (ops : List Op) (net : Network N), linksSorted net → linksSorted (runOps M net ops)
  | [], _, h => h
  | op :: ops, net, h => runOps_linksSorted M ops _ (applyOp_linksSorted M net op h)

theorem neighbors_targets_increasing (net : Network N) (n : Nat) (h : linksSorted net) :
    ((neighbors net n).map Prod.fst).Pairwise (fun t1 t2 => t1 < t2) := by
  rw [neighbors_eq, List.map_map, List.pairwise_map]
  refine (List.Pairwise.filter _ h).imp_of_mem ?_
  intro e1 e2 h1 h2 hlt
  have hs1 : e1.1.1 = n := by simpa using (List.mem_filter.mp h1).2
  have hs2 : e2.1.1 = n := by simpa using (List.mem_filter.mp h2).2
  rw [keyLt_iff] at hlt
  simp only [Function.comp]
  omega

theorem links_eq_of_perm (net1 net2 : Network N) (h1 : linksSorted net1)
    (h2 : linksSorted net2) (hperm : net1.links.Perm net2.links) :
    net1.links = net2.links := by
  haveI : IsAntisymm Link (fun e1 e2 => keyLt e1.1 e2.1 = true) :=
    ⟨fun e1 e2 h12 h21 => by
      rw [keyLt_iff] at h12 h21
      omega⟩
  exact List.eq_of_perm_of_sorted hperm h1 h2

/-! ## The realized out-degree after `random_connect` -/

theorem add_link_count (M : NeuronModel N) (net : Network N) (a b : Nat) (str : ℚ)
    (i : Nat) :
    ((add_link M net a b str).2.links.filter (fun e => decide (e.1.1 = i))).length =
      (net.links.filter (fun e => decide (e.1.1 = i))).length +
        if (add_link M net a b str).1 = true ∧ a = i then 1 else 0 := by
  cases h : (add_link M net a b str).1
  · rw [add_link_of_false M net a b str h]
    simp
  · rw [(add_link_filter_perm M net a b str h i).length_eq]
    by_cases hai : a = i
    · rw [List.filter_cons_of_pos (by simpa using hai)]
      simp [hai]
    · rw [List.filter_cons_of_neg (by simpa using hai)]
      simp [hai]

theorem no_source_of_count_zero (net : Network N) (i : Nat)
    (h : (net.links.filter (fun e => decide (e.1.1 = i))).length = 0) :
    ∀ e ∈ net.links, e.1.1 ≠ i := by
  intro e he hsrc
  have hmem : e ∈ net.links.filter (fun e => decide (e.1.1 = i)) :=
    List.mem_filter.mpr ⟨he, by simpa using hsrc⟩
  rw [List.length_eq_zero.mp h] at hmem
  exact List.not_mem_nil _ hmem

/-- One scan of `random_connect` (lines 58-59) over candidates that are distinct valid
indices not yet linked from `node`: it stops at the sampled degree `d` or after every
candidate other than `node` itself has been linked. -/
theorem scanLoop_realized (M : NeuronModel N) (node d : Nat) (σ : Nat → Nat)
    (str : Nat → ℚ) (hstr : ∀ nl : Nat, nl < d → minStrength ≤ str nl) :
    ∀ (fuel nn nl : Nat) (net : Network N),
      node < net.size →
      (∀ m, nn ≤ m → m < nn + fuel → σ m < net.size) →
      (∀ m1 m2, nn ≤ m1 → m1 < m2 → m2 < nn + fuel → σ m1 ≠ σ m2) →
      (∀ e ∈ net.links, e.1.1 = node → ∀ m, nn ≤ m → m < nn + fuel → e.1.2 ≠ σ m) →
      (net.links.filter (fun e => decide (e.1.1 = node))).length = nl →
      nl ≤ d →
      (scanLoop M node (d : Int) σ str fuel nn nl net).1 =
          min d (nl + (List.range' nn fuel).countP (fun m => decide (σ m ≠ node))) ∧
        ((scanLoop M node (d : Int) σ str fuel nn nl net).2.links.filter
          (fun e => decide (e.1.1 = node))).length =
            (scanLoop M node (d : Int) σ str fuel nn nl net).1 ∧
        ∀ i, i ≠ node →
          ((scanLoop M node (d : Int) σ str fuel nn nl net).2.links.filter
            (fun e => decide (e.1.1 = i))).length =
              (net.links.filter (fun e => decide (e.1.1 = i))).length
  | 0, nn, nl, net, _, _, _, _, hcnt, hle => by
    refine ⟨?_, hcnt, fun i _ => rfl⟩
    simp only [scanLoop, List.range'_zero, List.countP_nil, add_zero]
    omega
  | fuel + 1, nn, nl, net, hnode, hval, hinj, hfree, hcnt, hle => by
    unfold scanLoop
    by_cases hlt : (nl : Int) < (d : Int)
    · rw [if_pos hlt]
      have hlt1 : nl < d := by omega
      have hrange : List.range' nn (fuel + 1) = nn :: List.range' (nn + 1) fuel :=
        List.range'_succ _ _ _
      by_cases hself : σ nn = node
      · have hr1 : (add_link M net node (σ nn) (str nl)).1 = false := by
          cases h : (add_link M net node (σ nn) (str nl)).1
          · rfl
          · exact absurd hself.symm ((add_link_fst M net _ _ _).mp h).1
        have hr2 := add_link_of_false M net node (σ nn) (str nl) hr1
        simp only [hr1, hr2, Bool.false_eq_true, if_false]
        have ih := scanLoop_realized M node d σ str hstr fuel (nn + 1) nl net hnode
          (fun m h1 h2 => hval m (by omega) (by omega))
          (fun m1 m2 h1 h2 h3 => hinj m1 m2 (by omega) h2 (by omega))
          (fun e he hs m h1 h2 => hfree e he hs m (by omega) (by omega)) hcnt hle
        have hc : (List.range' nn (fuel + 1)).countP (fun m => decide (σ m ≠ node)) =
            (List.range' (nn + 1) fuel).countP (fun m => decide (σ m ≠ node)) := by
          rw [hrange, List.countP_cons_of_neg _ _ (by simpa using hself)]
        rw [hc]
        exact ih
      · have hnew : ∀ w, ((node, σ nn), w) ∉ net.links := by
          intro w hw
          exact hfree _ hw rfl nn (le_refl _) (by omega) rfl
        have hr1 : (add_link M net node (σ nn) (str nl)).1 = true :=
          (add_link_fst M net _ _ _).mpr
            ⟨fun h => hself h.symm, hnode, hval nn (le_refl _) (by omega), hstr nl hlt1, hnew⟩
        have hperm := add_link_links_perm M net node (σ nn) (str nl) hr1
        have hc1 := add_link_count M net node (σ nn) (str nl) node
        rw [if_pos ⟨hr1, rfl⟩, hcnt] at hc1
        simp only [hr1, if_true]
        have ih := scanLoop_realized M node d σ str hstr fuel (nn + 1) (nl + 1)
          (add_link M net node (σ nn) (str nl)).2
          (by rw [add_link_size]; exact hnode)
          (fun m h1 h2 => by rw [add_link_size]; exact hval m (by omega) (by omega))
          (fun m1 m2 h1 h2 h3 => hinj m1 m2 (by omega) h2 (by omega))
          (fun e he hs m h1 h2 => by
            rcases List.mem_cons.mp (hperm.mem_iff.mp he) with heq | hold
            · rw [heq]
              exact hinj nn m (le_refl _) (by omega) (by omega)
            · exact hfree e hold hs m (by omega) (by omega))
          hc1 (by omega)
        have hc : (List.range' nn (fuel + 1)).countP (fun m => decide (σ m ≠ node)) =
            (List.range' (nn + 1) fuel).countP (fun m => decide (σ m ≠ node)) + 1 := by
          rw [hrange, List.countP_cons_of_pos _ _ (by simpa using hself)]
        refine ⟨?_, ih.2.1, ?_⟩
        · rw [ih.1, hc]
          omega
        · intro i hi
          rw [ih.2.2 i hi, add_link_count M net node (σ nn) (str nl) i,
            if_neg (fun h => hi h.2.symm)]
          rfl
    · rw [if_neg hlt]
      refine ⟨?_, hcnt, fun i _ => rfl⟩
      simp only []
      omega

theorem countP_ne_range (node : Nat) :
    ∀ n : Nat, (List.range n).countP (fun m => decide (m ≠ node)) =
      if node < n then n - 1 else n
  | 0 => by simp
  | n + 1 => by
    rw [List.range_succ, List.countP_append, countP_ne_range node n]
    by_cases h1 : n = node
    · rw [List.countP_cons_of_neg _ _ (by simpa using h1)]
      simp only [List.countP_nil]
      rw [if_neg (by omega), if_pos (by omega)]
      omega
    · rw [List.countP_cons_of_pos _ _ (by simpa using h1)]
      simp only [List.countP_nil]
      by_cases h2 : node < n
      · rw [if_pos h2, if_pos (by omega)]
        omega
      · rw [if_neg h2, if_neg (by omega)]

theorem countP_shuffle (σ : Nat → Nat) (n node : Nat) (hnode : node < n)
    (hperm : ((List.range n).map σ).Perm (List.range n)) :
    (List.range' 0 n).countP (fun m => decide (σ m ≠ node)) = n - 1 := by
  have h1 := hperm.countP_eq (fun m => decide (m ≠ node))
  rw [List.countP_map, countP_ne_range node n, if_pos hnode] at h1
  rw [← List.range_eq_range', ← h1]
  rfl

theorem connectLoop_realized (M : NeuronModel N) (degrees : Nat → Int)
    (shuffles : Nat → Nat → Nat) (strengths : Nat → Nat → ℚ) (n : Nat)
    (hdeg : ∀ i, i < n → 0 ≤ degrees i)
    (hperm : ∀ i, i < n → ((List.range n).map (shuffles i)).Perm (List.range n))
    (hstr : ∀ i nl : Nat, i < n → (nl : Int) < degrees i → minStrength ≤ strengths i nl) :
    ∀ (nodes : List Nat) (st : Nat × Network N), nodes.Nodup → (∀ i ∈ nodes, i < n) →
      st.2.size = n →
      (∀ i ∈ nodes, (st.2.links.filter (fun e => decide (e.1.1 = i))).length = 0) →
      (∀ i ∈ nodes,
          ((connectLoop M degrees shuffles strengths nodes st).2.links.filter
            (fun e => decide (e.1.1 = i))).length = min (degrees i).toNat (n - 1)) ∧
        ∀ i, i ∉ nodes →
          ((connectLoop M degrees shuffles strengths nodes st).2.links.filter
            (fun e => decide (e.1.1 = i))).length =
              (st.2.links.filter (fun e => decide (e.1.1 = i))).length
  | [], _, _, _, _, _ => by
    refine ⟨fun i hi => absurd hi (List.not_mem_nil _), fun i _ => rfl⟩
  | node :: rest, (num, net), hnd, hlt, hsz, hzero => by
    obtain ⟨hnotin, hndrest⟩ := List.nodup_cons.mp hnd
    have hnode : node < n := hlt node (List.mem_cons_self _ _)
    have hsz1 : net.size = n := hsz
    have hd : ((degrees node).toNat : Int) = degrees node :=
      Int.toNat_of_nonneg (hdeg node hnode)
    have hp := hperm node hnode
    have hnodup : ((List.range n).map (shuffles node)).Nodup :=
      hp.nodup_iff.mpr (List.nodup_range n)
    have hscan := scanLoop_realized M node (degrees node).toNat (shuffles node)
      (strengths node)
      (fun nl hnl => hstr node nl hnode (by omega)) n 0 0 net (by omega)
      (fun m _ hm => by
        have hmem : shuffles node m ∈ (List.range n).map (shuffles node) :=
          List.mem_map.mpr ⟨m, List.mem_range.mpr (by omega), rfl⟩
        have := List.mem_range.mp (hp.mem_iff.mp hmem)
        omega)
      (fun m1 m2 _ h12 hm2 heq => by
        have := List.inj_on_of_nodup_map hnodup (List.mem_range.mpr (by omega))
          (List.mem_range.mpr (by omega)) heq
        omega)
      (fun e he hs _ _ _ =>
        absurd hs (no_source_of_count_zero net node
          (hzero node (List.mem_cons_self _ _)) e he))
      (hzero node (List.mem_cons_self _ _)) (Nat.zero_le _)
    rw [hd, zero_add, countP_shuffle (shuffles node) n node hnode hp] at hscan
    obtain ⟨hs1, hs2, hs3⟩ := hscan
    unfold connectLoop
    rw [hsz1]
    have ih := connectLoop_realized M degrees shuffles strengths n hdeg hperm hstr rest
      (num + (scanLoop M node (degrees node) (shuffles node) (strengths node) n 0 0 net).1,
        (scanLoop M node (degrees node) (shuffles node) (strengths node) n 0 0 net).2)
      hndrest (fun i hi => hlt i (List.mem_cons_of_mem _ hi))
      ((scanLoop_size M node _ _ _ _ _ _ net).trans hsz1)
      (fun i hi => by
        have hne : i ≠ node := fun h => hnotin (h ▸ hi)
        rw [hs3 i hne]
        exact hzero i (List.mem_cons_of_mem _ hi))
    obtain ⟨ih1, ih2⟩ := ih
    refine ⟨?_, ?_⟩
    · intro i hi
      rcases List.mem_cons.mp hi with heq | hin
      · rw [heq, ih2 node hnotin, hs2, hs1]
      · exact ih1 i hin
    · intro i hi
      have hne : i ≠ node := fun h => hi (h ▸ List.mem_cons_self _ _)
      have hnr : i ∉ rest := fun h => hi (List.mem_cons_of_mem _ h)
      rw [ih2 i hnr, hs3 i hne]

/-- C18: for a network of size `N`, when every sampled degree is `>= 0`, every shuffle
result is a permutation of `[0,N)` and every strength drawn is `>= 1e-6`, after
`random_connect` the realized out-degree `degree(i).count` of every neuron `i` is exactly
`min(sampled_degree[i], N - 1)`. -/
theorem random_connect_realized_degree (M : NeuronModel N) (net : Network N)
    (degrees : Nat → Int) (shuffles : Nat → Nat → Nat) (strengths : Nat → Nat → ℚ)
    (hdeg : ∀ i, i < net.size → 0 ≤ degrees i)
    (hperm : ∀ i, i < net.size →
      ((List.range net.size).map (shuffles i)).Perm (List.range net.size))
    (hstr : ∀ i nl : Nat, i < net.size → (nl : Int) < degrees i →
      minStrength ≤ strengths i nl) :
    ∀ i, i < net.size →
      (degree (random_connect M net degrees shuffles strengths).2 i).1 =
        min (degrees i).toNat (net.size - 1) := by
  intro i hi
  rw [degree_eq]
  have h := connectLoop_realized M degrees shuffles strengths net.size hdeg hperm hstr
    (List.range net.size) (0, ⟨net.neurons, []⟩) (List.nodup_range _)
    (fun j hj => List.mem_range.mp hj) rfl (fun j _ => rfl)
  exact h.1 i (List.mem_range.mpr hi)

/-- Witness of C18: `sampleNet` with sampled degrees 5, 1, 0, rotations as shuffles and
all strengths 1. -/
theorem random_connect_realized_degree_witness :
    ((∀ i, i < sampleNet.size → 0 ≤ sampleDegrees i) ∧
        (∀ i, i < sampleNet.size →
          ((List.range sampleNet.size).map (sampleShuffles i)).Perm
            (List.range sampleNet.size)) ∧
        (∀ i nl : Nat, i < sampleNet.size → (nl : Int) < sampleDegrees i →
          minStrength ≤ (fun _ _ => (1 : ℚ)) i nl)) ∧
      ∀ i, i < sampleNet.size →
        (degree (random_connect sampleModel sampleNet sampleDegrees sampleShuffles
            (fun _ _ => 1)).2 i).1 =
          min (sampleDegrees i).toNat (sampleNet.size - 1) :=
  ⟨⟨by decide!, by decide!, fun _ _ _ _ => by norm_num [minStrength]⟩,
    random_connect_realized_degree sampleModel sampleNet sampleDegrees sampleShuffles
      (fun _ _ => 1) (by decide!) (by decide!)
      (fun _ _ _ _ => by norm_num [minStrength])⟩

/-! ## `add_link` on a strength that may be NaN -/

theorem mapCountD_eq_zero_iff (links : List LinkD) (k : LinkKey) :
    mapCountD links k = 0 ↔ ∀ v, (k, v) ∉ links := by
  unfold mapCountD
  constructor
  · intro h v hv
    have : links.any (fun e => e.1 == k) = true := by
      rw [List.any_eq_true]
      exact ⟨(k, v), hv, by simp⟩
    simp [this] at h
  · intro h
    have : ¬ (links.any (fun e => e.1 == k) = true) := by
      rw [List.any_eq_true]
      rintro ⟨⟨k1, v⟩, hmem, hk⟩
      have hk1 : k1 = k := by simpa using hk
      subst hk1
      exact h v hmem
    simp [this]

/-- The returned flag of `add_link` for every strength, NaN included: the guard of line 39
rejects a strength only when `str < 1e-6` holds. -/
theorem add_link_double_fst (M : NeuronModel N) (net : NetworkD N) (a b : Nat) (str : Dbl) :
    (add_link_double M net a b str).1 = true ↔
      (a ≠ b ∧ a < net.neurons.length ∧ b < net.neurons.length ∧
        str.lt minStrengthDouble = false ∧ ∀ w, ((a, b), w) ∉ net.links) := by
  unfold add_link_double
  split
  · rename_i h
    simp only [Bool.false_eq_true, false_iff]
    rintro ⟨h1, h2, h3, h4, -⟩
    rcases h with h | h | h | h
    · exact h1 h
    · exact absurd h2 (Nat.not_lt.mpr h)
    · exact absurd h3 (Nat.not_lt.mpr h)
    · rw [h4] at h
      exact Bool.false_ne_true h
  · rename_i h
    push_neg at h
    obtain ⟨h1, h2, h3, h4⟩ := h
    split
    · rename_i hc
      simp only [Bool.false_eq_true, false_iff]
      rintro ⟨-, -, -, -, h5⟩
      exact hc ((mapCountD_eq_zero_iff _ _).mpr h5)
    · rename_i hc
      simp only [true_iff]
      exact ⟨h1, h2, h3, by simpa using h4,
        (mapCountD_eq_zero_iff _ _).mp (not_not.mp hc)⟩

/-- C1, counterexample: `add_link(0, 1, NaN)` on two neurons without links.  `NaN < 1e-6`
is false, so the call stores the link with weight NaN and returns true, although
`NaN >= 1e-6` is false. -/
theorem add_link_nan_counterexample :
    (add_link_double sampleModel nanNet 0 1 Dbl.nan).1 = true ∧
      (add_link_double sampleModel nanNet 0 1 Dbl.nan).2.links = [((0, 1), Dbl.nan)] ∧
      Dbl.ge Dbl.nan minStrengthDouble = false := by
  decide!

/-- C1, amended: for every network state, every `a`, `b` and every strength that is a
number (not NaN), `add_link(a, b, strength)` returns true exactly when `a != b`,
`a < size()`, `b < size()`, `strength >= 1e-6` and no link keyed `(a,b)` is stored before
the call; in every other case it returns false. -/
theorem add_link_returns_true_iff_number (M : NeuronModel N) (net : NetworkD N) (a b : Nat)
    (q : ℚ) :
    ((add_link_double M net a b (Dbl.finite q)).1 = true ↔
        (a ≠ b ∧ a < net.neurons.length ∧ b < net.neurons.length ∧
          (Dbl.finite q).ge minStrengthDouble = true ∧ ∀ w, ((a, b), w) ∉ net.links)) ∧
      ((add_link_double M net a b (Dbl.finite q)).1 = false ↔
        ¬ (a ≠ b ∧ a < net.neurons.length ∧ b < net.neurons.length ∧
          (Dbl.finite q).ge minStrengthDouble = true ∧ ∀ w, ((a, b), w) ∉ net.links)) := by
  have hge : (Dbl.finite q).ge minStrengthDouble = true ↔
      (Dbl.finite q).lt minStrengthDouble = false := by
    simp [Dbl.ge, Dbl.lt]
  rw [hge, ← add_link_double_fst M net a b (Dbl.finite q)]
  simp

/-! ## `degree` in double precision -/

theorem filter_mapInsert_of_ne (n : Nat) (k : LinkKey) (v : ℚ) (hn : k.1 ≠ n) :
    ∀ links : List Link,
      (mapInsert links k v).filter (fun e => decide (e.1.1 = n)) =
        links.filter (fun e => decide (e.1.1 = n))
  | [] => by
    simp [mapInsert, hn]
  | e :: es => by
    unfold mapInsert
    split
    · rw [List.filter_cons_of_neg (by simpa using hn)]
    · split
      · rfl
      · by_cases he : e.1.1 = n
        · rw [List.filter_cons_of_pos (by simpa using he),
            List.filter_cons_of_pos (by simpa using he), filter_mapInsert_of_ne n k v hn es]
        · rw [List.filter_cons_of_neg (by simpa using he),
            List.filter_cons_of_neg (by simpa using he), filter_mapInsert_of_ne n k v hn es]

theorem add_link_neighbors_other (M : NeuronModel N) (net : Network N) (a b : Nat) (str : ℚ)
    (n : Nat) (hn : n ≠ a) :
    neighbors (add_link M net a b str).2 n = neighbors net n := by
  cases h : (add_link M net a b str).1
  · rw [add_link_of_false M net a b str h]
  · rw [add_link_of_true M net a b str h, neighbors_eq, neighbors_eq]
    simp only []
    rw [filter_mapInsert_of_ne n (a, b) _ (fun h' => hn h'.symm)]

theorem add_link_neighbors_perm (M : NeuronModel N) (net : Network N) (a b : Nat) (str : ℚ)
    (h : (add_link M net a b str).1 = true) :
    (neighbors (add_link M net a b str).2 a).Perm
      ((b, if M.is_inhibitory (net.neuron M b) then str * (-2) else str) ::
        neighbors net a) := by
  have hp := add_link_filter_perm M net a b str h a
  rw [List.filter_cons_of_pos (by simp)] at hp
  rw [neighbors_eq, neighbors_eq]
  exact hp.map (fun e : Link => (e.1.2, e.2))

/-- Inserting a key whose target is above every stored target of the same source puts the
new entry last among the links of that source. -/
theorem filter_mapInsert_last (a b : Nat) (v : ℚ) :
    ∀ links : List Link,
      links.Pairwise (fun e1 e2 => keyLt e1.1 e2.1 = true) →
      (∀ e ∈ links, e.1.1 = a → e.1.2 < b) →
      (mapInsert links (a, b) v).filter (fun e => decide (e.1.1 = a)) =
        links.filter (fun e => decide (e.1.1 = a)) ++ [((a, b), v)]
  | [], _, _ => by
    simp [mapInsert]
  | e :: es, hs, hb => by
    obtain ⟨hhead, htail⟩ := List.pairwise_cons.mp hs
    have hbes : ∀ x ∈ es, x.1.1 = a → x.1.2 < b :=
      fun x hx => hb x (List.mem_cons_of_mem _ hx)
    unfold mapInsert
    split
    · rename_i hlt
      have hnone : (e :: es).filter (fun e => decide (e.1.1 = a)) = [] := by
        rw [List.filter_eq_nil_iff]
        intro x hx
        simp only [decide_eq_true_eq]
        intro hxa
        have hxb := hb x hx hxa
        have hkx : keyLt (a, b) x.1 = true := by
          rcases List.mem_cons.mp hx with h1 | h1
          · rw [h1]
            exact hlt
          · have h2 := hhead x h1
            rw [keyLt_iff] at hlt h2 ⊢
            simp only [] at hlt h2 ⊢
            omega
        rw [keyLt_iff] at hkx
        simp only [] at hkx
        omega
      rw [List.filter_cons_of_pos (by simp), hnone]
      rfl
    · split
      · rename_i hk
        have h1 : e.1.1 = a := by rw [hk]
        have h2 : e.1.2 = b := by rw [hk]
        have := hb e (List.mem_cons_self _ _) h1
        omega
      · by_cases he : e.1.1 = a
        · rw [List.filter_cons_of_pos (by simpa using he),
            List.filter_cons_of_pos (by simpa using he),
            filter_mapInsert_last a b v es htail hbes]
          rfl
        · rw [List.filter_cons_of_neg (by simpa using he),
            List.filter_cons_of_neg (by simpa using he),
            filter_mapInsert_last a b v es htail hbes]

theorem degree_double_fst (net : Network N) (n : Nat) :
    (degree_double net n).1 = (neighbors net n).length := by
  unfold degree_double
  simp only []
  split
  · rename_i h
    rw [List.isEmpty_iff.mp h]
    rfl
  · rfl

theorem degree_double_snd (net : Network N) (n : Nat) :
    (degree_double net n).2 =
      (neighbors net n).foldl (fun s nb => roundDouble (s + nb.2)) 0 := by
  unfold degree_double
  simp only []
  split
  · rename_i h
    rw [List.isEmpty_iff.mp h]
    rfl
  · rfl

theorem add_link_degree_double_last (M : NeuronModel N) (net : Network N) (a b : Nat)
    (str : ℚ) (h : (add_link M net a b str).1 = true) (hs : linksSorted net)
    (hb : ∀ e ∈ net.links, e.1.1 = a → e.1.2 < b) :
    (degree_double (add_link M net a b str).2 a).2 =
      roundDouble ((degree_double net a).2 +
        if M.is_inhibitory (net.neuron M b) then str * (-2) else str) := by
  rw [degree_double_snd, degree_double_snd, neighbors_eq, neighbors_eq,
    add_link_of_true M net a b str h]
  simp only []
  rw [filter_mapInsert_last a b _ net.links hs hb, List.map_append, List.foldl_append]
  rfl

theorem mem_neighbors_iff (net : Network N) (n t : Nat) (w : ℚ) :
    (t, w) ∈ neighbors net n ↔ ((n, t), w) ∈ net.links := by
  rw [neighbors_eq, List.mem_map]
  constructor
  · rintro ⟨e, he, heq⟩
    obtain ⟨hmem, hsrc⟩ := List.mem_filter.mp he
    have h1 : e.1.1 = n := by simpa using hsrc
    have h2 : e.1.2 = t := (Prod.mk.inj heq).1
    have h3 : e.2 = w := (Prod.mk.inj heq).2
    have : ((n, t), w) = e := by
      rw [← h1, ← h2, ← h3]
    rw [this]
    exact hmem
  · intro h
    exact ⟨((n, t), w), List.mem_filter.mpr ⟨h, by simp⟩, rfl⟩

/-- C19, counterexample: `add_link(0, 2, 0.4)` on four excitatory neurons where neuron 0
has the links `(0,1)` and `(0,3)` of weight 0.1.  The call succeeds with `w = 0.4`; the
valence before is `0.1 + 0.1 = 0.2`, and after the call line 78 adds in target order,
`(0.1 + 0.4) + 0.1 = 0.6`, while `valence + w = 0.2 + 0.4` is `0.6000000000000001` in
`double` and is not 0.6 as an exact sum either. -/
theorem add_link_valence_counterexample :
    (add_link sampleModel roundingNet 0 2 fourTenths).1 = true ∧
      (roundDouble tenth = tenth ∧ roundDouble fourTenths = fourTenths) ∧
      degree_double roundingNet 0 = (2, 3602879701896397 / 18014398509481984) ∧
      degree_double (add_link sampleModel roundingNet 0 2 fourTenths).2 0 =
        (3, 5404319552844595 / 9007199254740992) ∧
      roundDouble ((degree_double roundingNet 0).2 + fourTenths) =
        1351079888211149 / 2251799813685248 ∧
      (degree_double (add_link sampleModel roundingNet 0 2 fourTenths).2 0).2 ≠
        roundDouble ((degree_double roundingNet 0).2 + fourTenths) ∧
      (degree_double (add_link sampleModel roundingNet 0 2 fourTenths).2 0).2 ≠
        (degree_double roundingNet 0).2 + fourTenths := by
  decide!

/-- C19, amended: when `add_link(a, b, strength)` returns true with stored weight `w`,
`degree(a).count` after the call is `count + 1`, `degree(n)` is unchanged for every
`n != a`, and `neighbors(a)` after the call contains the pair `(b, w)` exactly once, next to
the pairs it held before.  `degree(a).valence` after the call is the `double` sum of those
weights in target order: it is `valence + w` rounded once when the links are in key order
and `b` is above every target `a` already has, and it is `valence + w` in exact
arithmetic. -/
theorem add_link_degree_effect (M : NeuronModel N) (net : Network N) (a b : Nat) (str : ℚ)
    (h : (add_link M net a b str).1 = true) :
    (degree_double (add_link M net a b str).2 a).1 = (degree_double net a).1 + 1 ∧
      (∀ n, n ≠ a → degree_double (add_link M net a b str).2 n = degree_double net n) ∧
      (neighbors (add_link M net a b str).2 a).count
        (b, if M.is_inhibitory (net.neuron M b) then str * (-2) else str) = 1 ∧
      (neighbors (add_link M net a b str).2 a).Perm
        ((b, if M.is_inhibitory (net.neuron M b) then str * (-2) else str) ::
          neighbors net a) ∧
      (linksSorted net → (∀ e ∈ net.links, e.1.1 = a → e.1.2 < b) →
        (degree_double (add_link M net a b str).2 a).2 =
          roundDouble ((degree_double net a).2 +
            if M.is_inhibitory (net.neuron M b) then str * (-2) else str)) ∧
      degree (add_link M net a b str).2 a =
        ((degree net a).1 + 1,
          (degree net a).2 +
            if M.is_inhibitory (net.neuron M b) then str * (-2) else str) ∧
      ∀ n, n ≠ a → degree (add_link M net a b str).2 n = degree net n := by
  refine ⟨?_, ?_, add_link_neighbors_count M net a b str h,
    add_link_neighbors_perm M net a b str h,
    fun hs hb => add_link_degree_double_last M net a b str h hs hb,
    add_link_degree_self M net a b str h,
    fun n hn => add_link_degree_other M net a b str h n hn⟩
  · rw [degree_double_fst, degree_double_fst,
      (add_link_neighbors_perm M net a b str h).length_eq]
    rfl
  · intro n hn
    unfold degree_double
    rw [add_link_neighbors_other M net a b str n hn]

/-- Witness of C19 (amended): a link from neuron 2 to the inhibitory neuron 0 of
`sampleNet`. -/
theorem add_link_degree_effect_witness :
    (add_link sampleModel sampleNet 2 0 1).1 = true ∧
      ((degree_double (add_link sampleModel sampleNet 2 0 1).2 2).1 =
          (degree_double sampleNet 2).1 + 1 ∧
        (∀ n, n ≠ 2 →
          degree_double (add_link sampleModel sampleNet 2 0 1).2 n = degree_double sampleNet n) ∧
        (neighbors (add_link sampleModel sampleNet 2 0 1).2 2).count
          (0, if sampleModel.is_inhibitory (sampleNet.neuron sampleModel 0)
            then (1 : ℚ) * (-2) else 1) = 1 ∧
        (neighbors (add_link sampleModel sampleNet 2 0 1).2 2).Perm
          ((0, if sampleModel.is_inhibitory (sampleNet.neuron sampleModel 0)
              then (1 : ℚ) * (-2) else 1) :: neighbors sampleNet 2) ∧
        (linksSorted sampleNet → (∀ e ∈ sampleNet.links, e.1.1 = 2 → e.1.2 < 0) →
          (degree_double (add_link sampleModel sampleNet 2 0 1).2 2).2 =
            roundDouble ((degree_double sampleNet 2).2 +
              if sampleModel.is_inhibitory (sampleNet.neuron sampleModel 0)
                then (1 : ℚ) * (-2) else 1)) ∧
        degree (add_link sampleModel sampleNet 2 0 1).2 2 =
          ((degree sampleNet 2).1 + 1,
            (degree sampleNet 2).2 +
              if sampleModel.is_inhibitory (sampleNet.neuron sampleModel 0)
                then (1 : ℚ) * (-2) else 1) ∧
        ∀ n, n ≠ 2 → degree (add_link sampleModel sampleNet 2 0 1).2 n = degree sampleNet n) :=
  ⟨by decide!, add_link_degree_effect sampleModel sampleNet 2 0 1 (by decide!)⟩

/-- C20: in every network reached from the empty one, `neighbors(n)` is the list of the
outgoing links of `n`, a pair `(target, weight)` for each stored link `(n, target)` and no
other pair, in strictly increasing order of target index, so no target appears twice; and
two such networks holding the same links, in whatever order they were inserted, give the
same `neighbors(n)`. -/
theorem neighbors_increasing_targets (M : NeuronModel N) (ops1 ops2 : List Op) (n : Nat)
    (hperm : (runOps M Network.empty ops1).links.Perm (runOps M Network.empty ops2).links) :
    neighbors (runOps M Network.empty ops1) n =
        ((runOps M Network.empty ops1).links.filter (fun e => decide (e.1.1 = n))).map
          (fun e => (e.1.2, e.2)) ∧
      (∀ t w, (t, w) ∈ neighbors (runOps M Network.empty ops1) n ↔
        ((n, t), w) ∈ (runOps M Network.empty ops1).links) ∧
      ((neighbors (runOps M Network.empty ops1) n).map Prod.fst).Pairwise
        (fun t1 t2 => t1 < t2) ∧
      ((neighbors (runOps M Network.empty ops1) n).map Prod.fst).Nodup ∧
      neighbors (runOps M Network.empty ops1) n = neighbors (runOps M Network.empty ops2) n := by
  have hs1 := runOps_linksSorted M ops1 Network.empty List.Pairwise.nil
  have hs2 := runOps_linksSorted M ops2 Network.empty List.Pairwise.nil
  have hinc := neighbors_targets_increasing _ n hs1
  refine ⟨neighbors_eq _ n, fun t w => mem_neighbors_iff _ n t w, hinc,
    hinc.imp (fun h => Nat.ne_of_lt h), ?_⟩
  rw [neighbors_eq, neighbors_eq, links_eq_of_perm _ _ hs1 hs2 hperm]

/-- Witness of C20: the links `(0,1)` and `(0,2)` inserted in both orders. -/
theorem neighbors_increasing_targets_witness :
    (runOps sampleModel Network.empty insertionOrderA).links.Perm
        (runOps sampleModel Network.empty insertionOrderB).links ∧
      (neighbors (runOps sampleModel Network.empty insertionOrderA) 0 =
          ((runOps sampleModel Network.empty insertionOrderA).links.filter
            (fun e => decide (e.1.1 = 0))).map (fun e => (e.1.2, e.2)) ∧
        (∀ t w, (t, w) ∈ neighbors (runOps sampleModel Network.empty insertionOrderA) 0 ↔
          ((0, t), w) ∈ (runOps sampleModel Network.empty insertionOrderA).links) ∧
        ((neighbors (runOps sampleModel Network.empty insertionOrderA) 0).map Prod.fst).Pairwise
          (fun t1 t2 => t1 < t2) ∧
        ((neighbors (runOps sampleModel Network.empty insertionOrderA) 0).map Prod.fst).Nodup ∧
        neighbors (runOps sampleModel Network.empty insertionOrderA) 0 =
          neighbors (runOps sampleModel Network.empty insertionOrderB) 0) :=
  ⟨List.Perm.of_eq (by decide!),
    neighbors_increasing_targets sampleModel insertionOrderA insertionOrderB 0
      (List.Perm.of_eq (by decide!))⟩

end NeuronNet
